import Mathlib

/-!
# Verification of the bookmarks ingestion/enrichment pipeline

Shallow embedding, in Lean 4, of the core logic of the `bookmarks`
Cloudflare worker:

* `chunkText` — the overlapping-chunk splitter of `queue-consumer.ts`,
  embedded with an explicit fuel bound so that termination of the
  source's `while` loop is a provable statement rather than an
  assumption;
* `HybridService.normalizeUrl` — URL canonicalization for dedup,
  together with a model of the platform `URL` class (parse/serialize)
  restricted to the `scheme://host[:port][/path][?query][#fragment]`
  fragment of the WHATWG grammar over ASCII strings;
* `HybridService.addBookmarks` — batch ingestion with batch-level
  dedup, degraded-store tolerance, and per-URL failure isolation;
* `handleQueue` — the queue consumer (current revision, with the
  batch-level idempotency pre-check), modelled as a state machine over
  an oracle environment that decides which external calls throw;
* `getLastSync` / `setLastSync` / `scheduled` — the periodic-sync
  checkpoint log.

Strings are modelled as `List Char` (`Str` below).  External
collaborators (D1 store, KV, R2, queue transport, AI models, browser
rendering) are modelled as oracle functions supplied in an environment
record; a call that "throws" in JS is a call whose oracle returns an
error value.
-/

/-- Strings of the JS source are modelled as character lists. -/
abbrev Str := List Char

/-! ## `chunkText` (queue-consumer.ts)

JS source:

```js
function chunkText(text, size = 1200, overlap = 200) {
  const chunks = [];
  let start = 0;
  while (start < text.length) {
    const end = Math.min(text.length, start + size);
    chunks.push(text.slice(start, end));
    const nextStart = Math.max(end - overlap, 0);
    if (nextStart <= start || nextStart >= text.length) {
      break;
    }
    start = nextStart;
  }
  return chunks;
}
```

The `while` loop is embedded with explicit fuel; `chunkLoop` returns
`none` exactly when the fuel is exhausted before the loop exits, so
termination of the source loop is the statement that sufficient fuel
yields `some`.  `Math.max (end - overlap) 0` is Nat subtraction. -/
def chunkLoop (text : Str) (size overlap : Nat) : Nat → Nat → Option (List Str)
  | 0, _ => none
  | fuel + 1, start =>
    if start < text.length then
      let e := min text.length (start + size)
      let c := (text.drop start).take (e - start)
      let nextStart := e - overlap
      if nextStart ≤ start ∨ text.length ≤ nextStart then
        some [c]
      else
        match chunkLoop text size overlap fuel nextStart with
        | none => none
        | some rest => some (c :: rest)
    else
      some []

/-- `chunkText`: run the loop with fuel `text.length + 1`, which (as
proved below) always suffices. -/
def chunkText (text : Str) (size : Nat := 1200) (overlap : Nat := 200) : List Str :=
  (chunkLoop text size overlap (text.length + 1) 0).getD []
/-! ## URL normalization (`HybridService.normalizeUrl`)

JS source (services/hybrid version):

```js
private normalizeUrl(url: string): string {
    try {
        const parsed = new URL(url.toLowerCase());
        if (parsed.pathname.endsWith('/') && parsed.pathname.length > 1) {
            parsed.pathname = parsed.pathname.slice(0, -1);
        }
        if ((parsed.protocol === 'http:' && parsed.port === '80') ||
            (parsed.protocol === 'https:' && parsed.port === '443')) {
            parsed.port = '';
        }
        return parsed.toString();
    } catch {
        return url;
    }
}
```

The platform `URL` class is an external collaborator.  It is modelled
by `parseURL` / `serializeURL` below, restricted to the
`scheme://host[:port][/path][?query][#fragment]` fragment of the
WHATWG grammar over ASCII text: scheme is one or more letters, host is
one or more characters none of which is `:`, `/`, `?` or `#`, port is
one or more digits, the path starts at the first `/` after the
authority and runs to the first `?` or `#`, the query runs from `?` to
the first `#`, and the fragment is everything after `#`.  As in the
platform class, an empty path serializes as `/` (`new URL`
normalizes the path of an http(s) URL to at least `/`).
Percent-encoding, userinfo, IPv6 hosts, default-port canonicalization
of non-canonical digit strings (e.g. `:080`) and IDNA mapping are
outside the model. -/

/-- `url.toLowerCase()` (ASCII). -/
def lowerStr (s : Str) : Str := s.map Char.toLower

/-- The components of a parsed URL, as exposed by the platform `URL`
class (`protocol`/`host`/`port`/`pathname`/`search`/`hash`).  `port`,
`query`, `fragment` are `none` when absent; delimiters are not
stored. -/
structure UrlParts where
  scheme : Str
  host : Str
  port : Option Str
  path : Str
  query : Option Str
  fragment : Option Str
deriving DecidableEq

/-- Characters allowed to continue the authority component. -/
def authChar (c : Char) : Bool := c != '/' && c != '?' && c != '#'

/-- Characters allowed to continue the path component. -/
def pathChar (c : Char) : Bool := c != '?' && c != '#'

/-- Characters allowed in a host. -/
def hostChar (c : Char) : Bool := authChar c && c != ':'

/-- Split everything after the authority into path, query and
fragment. -/
def parseTail (afterAuth : Str) : Str × Option Str × Option Str :=
  let pathRaw := afterAuth.takeWhile pathChar
  let path := if pathRaw = [] then ['/'] else pathRaw
  match afterAuth.dropWhile pathChar with
  | '?' :: t =>
    let q := t.takeWhile (fun c => c != '#')
    match t.dropWhile (fun c => c != '#') with
    | '#' :: f => (path, some q, some f)
    | _ => (path, some q, none)
  | '#' :: f => (path, none, some f)
  | _ => (path, none, none)

/-- Model of `new URL(s)`: `some` of the parsed components, or `none`
when the constructor would throw. -/
def parseURL (s : Str) : Option UrlParts :=
  let scheme := s.takeWhile (fun c => c != ':')
  match s.dropWhile (fun c => c != ':') with
  | ':' :: '/' :: '/' :: rest2 =>
    if scheme = [] ∨ ¬ scheme.all Char.isAlpha then none
    else
      let auth := rest2.takeWhile authChar
      let afterAuth := rest2.dropWhile authChar
      let host := auth.takeWhile (fun c => c != ':')
      let (path, query, fragment) := parseTail afterAuth
      match auth.dropWhile (fun c => c != ':') with
      | [] => if host = [] then none else some ⟨scheme, host, none, path, query, fragment⟩
      | ':' :: ds =>
        if host = [] ∨ ds = [] ∨ ¬ ds.all Char.isDigit then none
        else some ⟨scheme, host, some ds, path, query, fragment⟩
      | _ => none
  | _ => none

/-- Serialized form of an optional port (`:p`). -/
def portSer : Option Str → Str
  | none => []
  | some p => ':' :: p

/-- Serialized form of an optional query (`?q`). -/
def querySer : Option Str → Str
  | none => []
  | some q => '?' :: q

/-- Serialized form of an optional fragment (`#f`). -/
def fragSer : Option Str → Str
  | none => []
  | some f => '#' :: f

/-- Model of `URL#toString` / `href`. -/
def serializeURL (r : UrlParts) : Str :=
  r.scheme ++ [':', '/', '/'] ++ r.host ++ portSer r.port ++ r.path ++
    querySer r.query ++ fragSer r.fragment

/-- `if (pathname.endsWith('/') && pathname.length > 1) pathname = pathname.slice(0, -1)`. -/
def stripTrailingSlash (p : Str) : Str :=
  if p.getLast? = some '/' ∧ 1 < p.length then p.dropLast else p

/-- The two component mutations `normalizeUrl` performs on the parsed
URL: trailing-slash stripping and explicit-default-port removal. -/
def normParts (r : UrlParts) : UrlParts :=
  let r1 : UrlParts := { r with path := stripTrailingSlash r.path }
  if (r1.scheme = ['h', 't', 't', 'p'] ∧ r1.port = some ['8', '0']) ∨
      (r1.scheme = ['h', 't', 't', 'p', 's'] ∧ r1.port = some ['4', '4', '3']) then
    { r1 with port := none }
  else r1

/-- `HybridService.normalizeUrl`. -/
def normalizeUrl (u : Str) : Str :=
  match parseURL (lowerStr u) with
  | none => u
  | some r => serializeURL (normParts r)

/-- Well-formedness of URL components: what `parseURL` guarantees and
`serializeURL` needs for the round trip. -/
def UrlWF (r : UrlParts) : Prop :=
  r.scheme ≠ [] ∧ r.scheme.all Char.isAlpha ∧
  r.host ≠ [] ∧ r.host.all hostChar ∧
  (∀ p, r.port = some p → p ≠ [] ∧ p.all Char.isDigit) ∧
  r.path ≠ [] ∧ r.path.head? = some '/' ∧ r.path.all pathChar ∧
  (∀ q, r.query = some q → q.all (fun c => c != '#'))

/-- Character lists all of whose characters are fixed by `toLower`. -/
def LowerFixed (s : Str) : Prop := ∀ c ∈ s, c.toLower = c

/-! ## Ingestion (`HybridService.addBookmarks`)

Model of the current `addBookmarks` (the revision with normalization,
batched existence check and per-URL failure isolation).  External
collaborators (D1 store, queue transport, `Date.now()` + jitter id
generation, clock) are an oracle environment: `insertThrows u` /
`sendThrows u` say whether the D1 insert / queue send for URL `u`
throws, `checkThrows` whether the batched existence `SELECT` throws,
`idGen u` is the synthetic id generated in `u`'s loop iteration, `now`
the ISO timestamp.  The result record additionally carries the
observable interactions: `attempted` (URLs whose try-block was
entered) and `sentMessages` (successful queue sends, in order). -/

/-- A queue work item (`BookmarkQueueMessage`). -/
structure QueueMsg where
  raindropId : Nat
  link : Str
  title : Str
  created : Str
deriving DecidableEq

/-- One element of the `items` array returned by `addBookmarks`. -/
structure IngestItem where
  id : Nat
  link : Str
  title : Str
deriving DecidableEq

/-- Oracle environment for one `addBookmarks` call. -/
structure IngestEnv where
  store : List Str
  checkThrows : Bool
  insertThrows : Str → Bool
  sendThrows : Str → Bool
  idGen : Str → Nat
  now : Str

/-- One step of building `normalizedMap` (a JS `Map` keyed by the
normalized URL, insertion order preserved, first-seen original kept). -/
def addIfAbsent (m : List (Str × Str)) (u : Str) : List (Str × Str) :=
  if normalizeUrl u ∈ m.map Prod.fst then m else m ++ [(normalizeUrl u, u)]

/-- `normalizedMap`: normalized form ↦ first-seen original. -/
def normalizedMap (urls : List Str) : List (Str × Str) :=
  urls.foldl addIfAbsent []

/-- `uniqueUrls = Array.from(normalizedMap.values())`. -/
def uniqueUrls (urls : List Str) : List Str :=
  (normalizedMap urls).map Prod.snd

/-- The result of `addBookmarks` plus the observable side effects. -/
structure IngestResult where
  success : Bool
  processed : Nat
  skipped : Nat
  items : List IngestItem
  attempted : List Str
  sentMessages : List QueueMsg
deriving DecidableEq

/-- The set of already-present URLs as computed by the batched
existence query; the query's own failure is caught and degrades to
the empty set ("treat all as new"). -/
def existingUrls (env : IngestEnv) (uniq : List Str) : List Str :=
  if env.checkThrows then [] else uniq.filter (· ∈ env.store)

/-- Loop accumulator: `processed`, `skipped` arrays and the observable
interactions. -/
structure IngestAcc where
  processedItems : List IngestItem
  skippedUrls : List Str
  attempted : List Str
  sentMessages : List QueueMsg
deriving DecidableEq

/-- One iteration of the per-URL loop of `addBookmarks`: skip if the
URL already exists, otherwise insert the placeholder record and
enqueue; a throw from insert or send is caught and the loop
continues. -/
def ingestStep (env : IngestEnv) (existing : List Str) (acc : IngestAcc) (url : Str) :
    IngestAcc :=
  if url ∈ existing then
    { acc with skippedUrls := acc.skippedUrls ++ [url] }
  else
    let i := env.idGen url
    let acc1 := { acc with attempted := acc.attempted ++ [url] }
    if env.insertThrows url then acc1
    else if env.sendThrows url then acc1
    else
      { acc1 with
        processedItems := acc1.processedItems ++ [⟨i, url, url⟩]
        sentMessages := acc1.sentMessages ++ [⟨i, url, url, env.now⟩] }

/-- `HybridService.addBookmarks`. -/
def addBookmarks (env : IngestEnv) (urls : List Str) : IngestResult :=
  let uniq := uniqueUrls urls
  if uniq.isEmpty then
    ⟨true, 0, 0, [], [], []⟩
  else
    let existing := existingUrls env uniq
    let acc := uniq.foldl (ingestStep env existing) ⟨[], [], [], []⟩
    ⟨true, acc.processedItems.length, acc.skippedUrls.length,
      acc.processedItems, acc.attempted, acc.sentMessages⟩

/-! ## Queue consumer (`handleQueue`, queue-consumer.ts)

Model of the current `handleQueue` revision (the one with the
batch-level idempotency pre-check, best-effort screenshot side path
and agent summary with podcast-script fallback).  Every external call
the consumer makes is an `PipeAction`; the oracle `fail` says which calls
throw (and with what message); value-producing collaborators
(extraction, image upload, the summarizer) have result oracles.
Logging is out of scope (spec §1) and not modelled.  A message record
collects what happened to one message: whether it was skipped by the
pre-check, acked or retried, and the trace of external calls made on
its behalf. -/

/-- Result of `extractArticleMetadata`. -/
structure Extracted where
  title : Option Str
  byline : Option Str
  textContent : Str
  html : Str

/-- Result of the analyst agent's `summarize`. -/
structure SummaryRes where
  summary : Str
  podcast_script : Option Str

/-- The external calls stage 2-5 processing can make, tagged with the
arguments that identify them. -/
inductive PipeAction where
  | extract (link : Str)
  | kvPut (key : Str)
  | upsertBookmark (rid : Nat)
  | upsertCacheOk (rid : Nat)
  | screenshot (link : Str)
  | uploadImage (rid : Nat)
  | setCover (rid : Nat)
  | summarize (rid : Nat)
  | setSummary (rid : Nat)
  | embed (rid : Nat) (chunkCount : Nat)
  | upsertVectors (rid : Nat)
  | genScript (rid : Nat)
  | tts (rid : Nat)
  | r2Put (key : Str)
  | upsertPodcast (rid : Nat)
  | cacheError (rid : Nat) (err : Str)
deriving DecidableEq

/-- Deterministic KV key `html:{raindropId}`. -/
def htmlKey (rid : Nat) : Str := ("html:").toList ++ Nat.toDigits 10 rid

/-- Deterministic R2 key `podcast/{raindropId}.mp3`. -/
def audioKey (rid : Nat) : Str :=
  ("podcast/").toList ++ Nat.toDigits 10 rid ++ (".mp3").toList

/-- Oracle environment for one queue batch invocation. -/
structure QueueEnv where
  store : List Str
  batchCheckThrows : Bool
  fail : PipeAction → Option Str
  extractResult : Str → Extracted
  uploadResult : Nat → Option Str
  summaryResult : Str → SummaryRes

/-- A delivered queue message, with the transport's attempt counter. -/
structure Msg where
  raindropId : Nat
  link : Str
  title : Option Str
  created : Str
  attempts : Nat
deriving DecidableEq

/-- Make one external call: extend the trace, or throw. -/
def runStep (env : QueueEnv) (tr : List PipeAction) (a : PipeAction) :
    Except (List PipeAction × Str) (List PipeAction) :=
  match env.fail a with
  | some e => .error (tr ++ [a], e)
  | none => .ok (tr ++ [a])

/-- The best-effort screenshot side path (steps 1.5): capture, upload,
cover-image update; every failure is caught, logged and swallowed. -/
def screenshotBlock (env : QueueEnv) (rid : Nat) (link : Str) (tr : List PipeAction) :
    List PipeAction :=
  match runStep env tr (.screenshot link) with
  | .error (tr1, _) => tr1
  | .ok tr1 =>
    match runStep env tr1 (.uploadImage rid) with
    | .error (tr2, _) => tr2
    | .ok tr2 =>
      match env.uploadResult rid with
      | none => tr2
      | some _ =>
        match runStep env tr2 (.setCover rid) with
        | .error (tr3, _) => tr3
        | .ok tr3 => tr3

/-- Stage 2-5 processing of one message (the body of the `try` block):
extraction, KV put, bookmark and cache upserts, screenshot side path,
summary, embeddings, podcast.  Returns the final trace, or the trace
so far plus the thrown message. -/
def pipelineE (env : QueueEnv) (m : Msg) : Except (List PipeAction × Str) (List PipeAction) := do
  let tr ← runStep env [] (.extract m.link)
  let content := env.extractResult m.link
  let tr ← runStep env tr (.kvPut (htmlKey m.raindropId))
  let tr ← runStep env tr (.upsertBookmark m.raindropId)
  let tr ← runStep env tr (.upsertCacheOk m.raindropId)
  let tr := screenshotBlock env m.raindropId m.link tr
  let tr ← runStep env tr (.summarize m.raindropId)
  let summary := env.summaryResult content.textContent
  let tr ← runStep env tr (.setSummary m.raindropId)
  let chunks := chunkText content.textContent
  let tr ← runStep env tr (.embed m.raindropId chunks.length)
  let tr ← runStep env tr (.upsertVectors m.raindropId)
  let tr ← match summary.podcast_script with
    | some _ => pure tr
    | none => runStep env tr (.genScript m.raindropId)
  let tr ← runStep env tr (.tts m.raindropId)
  let tr ← runStep env tr (.r2Put (audioKey m.raindropId))
  let tr ← runStep env tr (.upsertPodcast m.raindropId)
  pure tr

/-- What happened to one message of a batch. -/
structure MsgRecord where
  raindropId : Nat
  link : Str
  skipped : Bool
  acked : Bool
  retried : Bool
  trace : List PipeAction
deriving DecidableEq

def MAX_QUEUE_ATTEMPTS : Nat := 3

/-- Process one message: idempotency skip, or stage 2-5 with the
`catch` handler (error-ledger `ContentCacheRecord` write, then bounded
retry).  The result is `.error` exactly when an exception escapes
`handleQueue` for this message, which happens only when the `catch`
block's own ContentCacheRecord write throws. -/
def handleMsg (env : QueueEnv) (existing : List Str) (m : Msg) :
    Except Str MsgRecord :=
  if m.link ∈ existing then
    .ok ⟨m.raindropId, m.link, true, true, false, []⟩
  else
    match pipelineE env m with
    | .ok tr => .ok ⟨m.raindropId, m.link, false, true, false, tr⟩
    | .error (tr, e) =>
      match env.fail (.cacheError m.raindropId e) with
      | some e2 => .error e2
      | none =>
        let tr1 := tr ++ [.cacheError m.raindropId e]
        if m.attempts < MAX_QUEUE_ATTEMPTS then
          .ok ⟨m.raindropId, m.link, false, false, true, tr1⟩
        else
          .ok ⟨m.raindropId, m.link, false, true, false, tr1⟩

/-- The set of batch links already present in the store, computed once
per batch; the query's own failure is caught and degrades to the
empty set. -/
def existingOf (env : QueueEnv) (batch : List Msg) : List Str :=
  if env.batchCheckThrows then [] else (batch.map (·.link)).filter (· ∈ env.store)

/-- The message loop: an uncaught exception aborts the batch. -/
def handleQueueGo (env : QueueEnv) (existing : List Str) :
    List Msg → Except Str (List MsgRecord)
  | [] => .ok []
  | m :: ms =>
    match handleMsg env existing m with
    | .error e => .error e
    | .ok r =>
      match handleQueueGo env existing ms with
      | .error e => .error e
      | .ok rs => .ok (r :: rs)

/-- `handleQueue`: the batch-level idempotency pre-check followed by
the message loop. -/
def handleQueue (env : QueueEnv) (batch : List Msg) :
    Except Str (List MsgRecord) :=
  handleQueueGo env (existingOf env batch) batch

/-- Deliver a message repeatedly, as the queue transport does: start
at attempt count `a`, increment per redelivery, stop when the consumer
acks (or when an exception escapes).  Returns the per-delivery
records. -/
def redeliver (env : QueueEnv) (existing : List Str) (m : Msg) :
    Nat → Nat → List MsgRecord
  | 0, _ => []
  | fuel + 1, a =>
    match handleMsg env existing { m with attempts := a } with
    | .error _ => []
    | .ok r =>
      if r.retried then r :: redeliver env existing m fuel (a + 1) else [r]

/-! ## Periodic sync checkpoints (index.ts)

`getLastSync` / `setLastSync` over the `sync_log` table and the
`scheduled` entry point.  The table is modelled as a list in insertion
order (the `id INTEGER PRIMARY KEY AUTOINCREMENT` column is the list
position, so `ORDER BY id DESC LIMIT 1` is the last element).  The
Raindrop client's `listBookmarks` is an oracle from the checkpoint to
the fetched items; queue sends may throw, aborting the cycle. -/

structure SyncRow where
  lastSyncedAt : Str
deriving DecidableEq

structure SyncState where
  syncLog : List SyncRow
deriving DecidableEq

/-- `SELECT ... FROM sync_log ORDER BY id DESC LIMIT 1`. -/
def getLastSync (s : SyncState) : Option Str :=
  s.syncLog.getLast?.map (·.lastSyncedAt)

/-- `INSERT INTO sync_log (last_synced_at) VALUES (?)`. -/
def setLastSync (s : SyncState) (t : Str) : SyncState :=
  ⟨s.syncLog ++ [⟨t⟩]⟩

/-- An item returned by the Raindrop client. -/
structure RaindropItem where
  rid : Nat
  link : Str
  title : Str
  created : Str
deriving DecidableEq

/-- Oracle environment for one scheduled invocation. -/
structure SchedEnv where
  fetchItems : Option Str → List RaindropItem
  sendThrows : Nat → Bool

def MAX_QUEUE_ITEMS : Nat := 10

/-- The `scheduled` handler: read the checkpoint, fetch items created
after it, queue the first `MAX_QUEUE_ITEMS`, and append a new
checkpoint row with `items[0].created` when anything was fetched. -/
def scheduled (env : SchedEnv) (s : SyncState) :
    Except Str (SyncState × List QueueMsg) :=
  let items := env.fetchItems (getLastSync s)
  let queueItems := (items.take MAX_QUEUE_ITEMS).map fun it =>
    ({ raindropId := it.rid, link := it.link, title := it.title,
       created := it.created } : QueueMsg)
  if (List.range queueItems.length).any env.sendThrows then
    .error ("queue send failed").toList
  else
    match items with
    | [] => .ok (s, queueItems)
    | it0 :: _ => .ok (setLastSync s it0.created, queueItems)

/-! ### Helper and witness definitions -/

/-- Whether the per-URL try block succeeds end to end for `u`. -/
def ingestOk (env : IngestEnv) (existing : List Str) (u : Str) : Bool :=
  !(decide (u ∈ existing)) && !env.insertThrows u && !env.sendThrows u

/-- The record `handleMsg` produces when the catch-block cache write
cannot throw. -/
def handleMsgOk (env : QueueEnv) (existing : List Str) (m : Msg) : MsgRecord :=
  if m.link ∈ existing then ⟨m.raindropId, m.link, true, true, false, []⟩
  else
    match pipelineE env m with
    | .ok tr => ⟨m.raindropId, m.link, false, true, false, tr⟩
    | .error (tr, e) =>
      let tr1 := tr ++ [.cacheError m.raindropId e]
      if m.attempts < MAX_QUEUE_ATTEMPTS then
        ⟨m.raindropId, m.link, false, false, true, tr1⟩
      else
        ⟨m.raindropId, m.link, false, true, false, tr1⟩

def wEnvSkip : QueueEnv :=
  { store := [("https://a.example/p").toList]
    batchCheckThrows := false
    fail := fun _ => none
    extractResult := fun _ => ⟨none, none, [], []⟩
    uploadResult := fun _ => none
    summaryResult := fun _ => ⟨[], none⟩ }

def wMsgSkip : Msg := ⟨7, ("https://a.example/p").toList, none, [], 1⟩

def wEnvFail : QueueEnv :=
  { store := []
    batchCheckThrows := false
    fail := fun a =>
      match a with
      | .extract _ => some (("boom").toList)
      | _ => none
    extractResult := fun _ => ⟨none, none, [], []⟩
    uploadResult := fun _ => none
    summaryResult := fun _ => ⟨[], none⟩ }

def wMsgFail : Msg := ⟨9, ("https://b.example/q").toList, none, [], 1⟩

def wEnvCrash : QueueEnv :=
  { store := []
    batchCheckThrows := false
    fail := fun a =>
      match a with
      | .extract _ => some (("boom").toList)
      | .cacheError _ _ => some (("kaboom").toList)
      | _ => none
    extractResult := fun _ => ⟨none, none, [], []⟩
    uploadResult := fun _ => none
    summaryResult := fun _ => ⟨[], none⟩ }

def wEnvIngest : IngestEnv :=
  { store := []
    checkThrows := false
    insertThrows := fun _ => false
    sendThrows := fun _ => false
    idGen := fun _ => 42
    now := ("2024-01-01T00:00:00Z").toList }

def wEnvIngestDeg : IngestEnv :=
  { store := [("https://a.com/x").toList]
    checkThrows := true
    insertThrows := fun _ => false
    sendThrows := fun _ => false
    idGen := fun _ => 43
    now := ("2024-01-01T00:00:00Z").toList }

def wEnvIngestBad : IngestEnv :=
  { store := []
    checkThrows := false
    insertThrows := fun u => decide (u = ("https://bad.com/x").toList)
    sendThrows := fun _ => false
    idGen := fun _ => 5
    now := ("2024-01-01T00:00:00Z").toList }

def wEnvSched : SchedEnv :=
  { fetchItems := fun _ =>
      [⟨1, ("https://s.example/1").toList, ("t1").toList, ("2024-05-01").toList⟩]
    sendThrows := fun _ => false }

/-! # Theorems -/

/-- The loop body strictly advances `start`, so fuel
`text.length - start + 1` always suffices. -/
theorem chunkLoop_isSome (text : Str) (size overlap : Nat) :
    ∀ fuel start, text.length - start < fuel →
      (chunkLoop text size overlap fuel start).isSome := by
  intro fuel
  induction fuel with
  | zero => intro start h; omega
  | succ n ih =>
    intro start h
    rw [chunkLoop]
    split
    case isTrue hs =>
      dsimp only
      split
      case isTrue hb => simp
      case isFalse hb =>
        push_neg at hb
        have hrec := ih (min text.length (start + size) - overlap) (by omega)
        split
        case h_1 heq => rw [heq] at hrec; simp at hrec
        case h_2 => simp
    case isFalse hs => simp

theorem takeWhile_exact {p : Char → Bool} {a b : Str}
    (ha : ∀ x ∈ a, p x = true) (hb : ∀ c, b.head? = some c → p c = false) :
    (a ++ b).takeWhile p = a := by
  rw [List.takeWhile_append_of_pos ha]
  cases b with
  | nil => simp
  | cons c t => simp [List.takeWhile_cons, hb c rfl]

theorem dropWhile_exact {p : Char → Bool} {a b : Str}
    (ha : ∀ x ∈ a, p x = true) (hb : ∀ c, b.head? = some c → p c = false) :
    (a ++ b).dropWhile p = b := by
  rw [List.dropWhile_append_of_pos ha]
  cases b with
  | nil => simp
  | cons c t => simp [List.dropWhile_cons, hb c rfl]

theorem head_cons_false {p : Char → Bool} {d : Char} (t : Str) (hd : p d = false) :
    ∀ c, (d :: t).head? = some c → p c = false := by
  intro c h
  simp only [List.head?_cons, Option.some.injEq] at h
  subst h
  exact hd

theorem head_nil_false {p : Char → Bool} :
    ∀ c, ([] : Str).head? = some c → p c = false := by
  intro c h
  simp at h

theorem head_append_left {a b : Str} {c : Char} (h : a.head? = some c) :
    (a ++ b).head? = some c := by
  cases a with
  | nil => simp at h
  | cons x t => simpa using h

theorem alpha_ne_colon {c : Char} (h : c.isAlpha = true) : (c != ':') = true := by
  simp only [bne_iff_ne, ne_eq]
  rintro rfl
  simp [Char.isAlpha, Char.isUpper, Char.isLower] at h

theorem digit_auth {c : Char} (h : c.isDigit = true) : authChar c = true := by
  simp only [Char.isDigit, decide_eq_true_eq, Bool.and_eq_true] at h
  simp only [authChar, Bool.and_eq_true, bne_iff_ne, ne_eq]
  refine ⟨⟨?_, ?_⟩, ?_⟩ <;> rintro rfl <;> simp_all [Char.le_def]

theorem parseTail_eq {path : Str} {query fragment : Option Str}
    (hpa1 : path ≠ []) (hpa3 : path.all pathChar)
    (hq : ∀ q, query = some q → q.all (fun c => c != '#')) :
    parseTail (path ++ querySer query ++ fragSer fragment) = (path, query, fragment) := by
  have hpa3' : ∀ x ∈ path, pathChar x = true := fun x hx => List.all_eq_true.mp hpa3 x hx
  cases query with
  | some q =>
    have hq' : ∀ x ∈ q, (x != '#') = true := fun x hx =>
      List.all_eq_true.mp (hq q rfl) x hx
    cases fragment with
    | some f =>
      have htw : (path ++ '?' :: q ++ '#' :: f).takeWhile pathChar = path := by
        rw [List.append_assoc]
        exact takeWhile_exact hpa3' (head_cons_false _ rfl)
      have hdw : (path ++ '?' :: q ++ '#' :: f).dropWhile pathChar = '?' :: (q ++ '#' :: f) := by
        rw [List.append_assoc]
        exact dropWhile_exact hpa3' (head_cons_false _ rfl)
      have htq : (q ++ '#' :: f).takeWhile (fun c => c != '#') = q :=
        takeWhile_exact hq' (head_cons_false _ rfl)
      have hdq : (q ++ '#' :: f).dropWhile (fun c => c != '#') = '#' :: f :=
        dropWhile_exact hq' (head_cons_false _ rfl)
      simp only [querySer, fragSer, parseTail, htw, hdw, htq, hdq]
      simp [hpa1]
    | none =>
      have htw : (path ++ '?' :: q ++ []).takeWhile pathChar = path := by
        rw [List.append_nil]
        exact takeWhile_exact hpa3' (head_cons_false _ rfl)
      have hdw : (path ++ '?' :: q ++ []).dropWhile pathChar = '?' :: q := by
        rw [List.append_nil]
        exact dropWhile_exact hpa3' (head_cons_false _ rfl)
      have htq : (q : Str).takeWhile (fun c => c != '#') = q := by
        rw [List.takeWhile_eq_self_iff]; exact hq'
      have hdq : (q : Str).dropWhile (fun c => c != '#') = [] := by
        rw [List.dropWhile_eq_nil_iff]; exact hq'
      simp only [querySer, fragSer, parseTail, htw, hdw, htq, hdq]
      simp [hpa1]
  | none =>
    cases fragment with
    | some f =>
      have htw : (path ++ [] ++ '#' :: f).takeWhile pathChar = path := by
        rw [List.append_nil]
        exact takeWhile_exact hpa3' (head_cons_false _ rfl)
      have hdw : (path ++ [] ++ '#' :: f).dropWhile pathChar = '#' :: f := by
        rw [List.append_nil]
        exact dropWhile_exact hpa3' (head_cons_false _ rfl)
      simp only [querySer, fragSer, parseTail, htw, hdw]
      simp [hpa1]
    | none =>
      have htw : (path ++ [] ++ []).takeWhile pathChar = path := by
        rw [List.append_nil, List.append_nil, List.takeWhile_eq_self_iff]; exact hpa3'
      have hdw : (path ++ [] ++ []).dropWhile pathChar = ([] : Str) := by
        rw [List.append_nil, List.append_nil, List.dropWhile_eq_nil_iff]; exact hpa3'
      simp only [querySer, fragSer, parseTail, htw, hdw]
      simp [hpa1]

theorem parseURL_serializeURL {r : UrlParts} (h : UrlWF r) :
    parseURL (serializeURL r) = some r := by
  obtain ⟨hs1, hs2, hh1, hh2, hp, hpa1, hpa2, hpa3, hq⟩ := h
  obtain ⟨scheme, host, port, path, query, fragment⟩ := r
  simp only at hs1 hs2 hh1 hh2 hp hpa1 hpa2 hpa3 hq
  have hs2' : ∀ x ∈ scheme, (x != ':') = true := fun x hx =>
    alpha_ne_colon (List.all_eq_true.mp hs2 x hx)
  have hAauth : ∀ x ∈ host ++ portSer port, authChar x = true := by
    intro x hx
    rcases List.mem_append.mp hx with hx | hx
    · have := List.all_eq_true.mp hh2 x hx
      simp only [hostChar, Bool.and_eq_true] at this
      exact this.1
    · cases hport : port with
      | none => rw [hport] at hx; simp [portSer] at hx
      | some p =>
        rw [hport] at hx
        simp only [portSer, List.mem_cons] at hx
        rcases hx with rfl | hx
        · rfl
        · exact digit_auth (List.all_eq_true.mp (hp p hport).2 x hx)
  have hBhead : (path ++ querySer query ++ fragSer fragment).head? = some '/' :=
    head_append_left (head_append_left hpa2)
  have hser : serializeURL ⟨scheme, host, port, path, query, fragment⟩ =
      scheme ++ ':' :: '/' :: '/' ::
        ((host ++ portSer port) ++ (path ++ querySer query ++ fragSer fragment)) := by
    simp [serializeURL, List.append_assoc]
  rw [hser]
  have htw1 := takeWhile_exact hs2' (p := fun c => c != ':')
    (head_cons_false (d := ':') ('/' :: '/' :: ((host ++ portSer port) ++
      (path ++ querySer query ++ fragSer fragment))) rfl)
  have hdw1 := dropWhile_exact hs2' (p := fun c => c != ':')
    (head_cons_false (d := ':') ('/' :: '/' :: ((host ++ portSer port) ++
      (path ++ querySer query ++ fragSer fragment))) rfl)
  have htwA := takeWhile_exact hAauth (fun c hc => by
    rw [hBhead] at hc
    cases hc
    rfl)
  have hdwA := dropWhile_exact hAauth (fun c hc => by
    rw [hBhead] at hc
    cases hc
    rfl)
  have hh2' : ∀ x ∈ host, (x != ':') = true := by
    intro x hx
    have := List.all_eq_true.mp hh2 x hx
    simp only [hostChar, Bool.and_eq_true] at this
    exact this.2
  simp only [parseURL, htw1, hdw1, htwA, hdwA]
  rw [if_neg (by simp [hs1, hs2])]
  rw [parseTail_eq hpa1 hpa3 hq]
  cases hport : port with
  | none =>
    have htwH : (host : Str).takeWhile (fun c => c != ':') = host := by
      rw [List.takeWhile_eq_self_iff]; exact hh2'
    have hdwH : (host : Str).dropWhile (fun c => c != ':') = [] := by
      rw [List.dropWhile_eq_nil_iff]; exact hh2'
    simp only [portSer, List.append_nil, htwH, hdwH]
    rw [if_neg hh1]
  | some p =>
    have htwH : (host ++ ':' :: p).takeWhile (fun c => c != ':') = host :=
      takeWhile_exact hh2' (head_cons_false _ rfl)
    have hdwH : (host ++ ':' :: p).dropWhile (fun c => c != ':') = ':' :: p :=
      dropWhile_exact hh2' (head_cons_false _ rfl)
    simp only [portSer, htwH, hdwH]
    rw [if_neg (by simp [hh1, (hp p hport).1, (hp p hport).2])]

theorem dropWhile_head_false {p : Char → Bool} :
    ∀ (l : Str) (c : Char), (l.dropWhile p).head? = some c → p c = false := by
  intro l
  induction l with
  | nil => intro c h; simp at h
  | cons x t ih =>
    intro c h
    rw [List.dropWhile_cons] at h
    by_cases hx : p x
    · rw [if_pos hx] at h
      exact ih c h
    · rw [if_neg hx] at h
      simp only [List.head?_cons, Option.some.injEq] at h
      subst h
      simpa using hx

theorem mem_takeWhile_pred {p : Char → Bool} {l : Str} {x : Char}
    (h : x ∈ l.takeWhile p) : p x = true :=
  List.mem_takeWhile_imp h

theorem mem_takeWhile_mem {p : Char → Bool} {l : Str} {x : Char}
    (h : x ∈ l.takeWhile p) : x ∈ l :=
  (List.takeWhile_sublist p).mem h

theorem not_auth_path_slash {c : Char} (h1 : authChar c = false) (h2 : pathChar c = true) :
    c = '/' := by
  simp only [authChar, Bool.and_eq_false_iff, bne_eq_false_iff_eq] at h1
  simp only [pathChar, Bool.and_eq_true, bne_iff_ne, ne_eq] at h2
  rcases h1 with (h | h) | h
  · exact h
  · exact absurd h h2.1
  · exact absurd h h2.2

/-- `parseTail` output facts, given that the input's head (if any) is not
an authority character. -/
theorem parseTail_wf {t : Str} {path : Str} {query fragment : Option Str}
    (hhead : ∀ c, t.head? = some c → authChar c = false)
    (h : parseTail t = (path, query, fragment)) :
    path ≠ [] ∧ path.head? = some '/' ∧ path.all pathChar ∧
      (∀ q, query = some q → q.all (fun c => c != '#')) := by
  have hpathRaw : ∀ {pr : Str}, t.takeWhile pathChar = pr → pr ≠ [] →
      pr.head? = some '/' := by
    intro pr hpr hne
    cases hpr' : pr with
    | nil => exact absurd hpr' hne
    | cons c cs =>
      subst hpr'
      have hc : c ∈ t.takeWhile pathChar := by rw [hpr]; exact List.mem_cons_self _ _
      have hcp : pathChar c = true := mem_takeWhile_pred hc
      have hct : t.head? = some c := by
        cases ht : t with
        | nil => rw [ht] at hpr; simp at hpr
        | cons d ds =>
          rw [ht, List.takeWhile_cons] at hpr
          by_cases hd : pathChar d
          · rw [if_pos hd] at hpr
            cases hpr
            simp
          · rw [if_neg hd] at hpr
            simp at hpr
      have := not_auth_path_slash (hhead c hct) hcp
      subst this
      simp
  unfold parseTail at h
  dsimp only at h
  split at h
  case h_1 u heq =>
    rcases h' : t.takeWhile pathChar with _ | ⟨c, cs⟩
    · rw [h'] at h
      simp only [if_pos] at h
      split at h
      case h_1 f heq2 =>
        cases h
        refine ⟨by simp, by simp, by simp [pathChar], ?_⟩
        intro q hq
        cases hq
        exact List.all_eq_true.mpr fun x hx => mem_takeWhile_pred (p := fun c => c != '#') hx
      case h_2 heq2 =>
        cases h
        refine ⟨by simp, by simp, by simp [pathChar], ?_⟩
        intro q hq
        cases hq
        exact List.all_eq_true.mpr fun x hx => mem_takeWhile_pred (p := fun c => c != '#') hx
    · rw [h'] at h
      have hne : (c :: cs : Str) ≠ [] := by simp
      rw [if_neg hne] at h
      split at h
      case h_1 f heq2 =>
        cases h
        refine ⟨hne, hpathRaw h' hne, ?_, ?_⟩
        · exact List.all_eq_true.mpr fun x hx => mem_takeWhile_pred (h' ▸ hx)
        · intro q hq
          cases hq
          exact List.all_eq_true.mpr fun x hx => mem_takeWhile_pred (p := fun c => c != '#') hx
      case h_2 heq2 =>
        cases h
        refine ⟨hne, hpathRaw h' hne, ?_, ?_⟩
        · exact List.all_eq_true.mpr fun x hx => mem_takeWhile_pred (h' ▸ hx)
        · intro q hq
          cases hq
          exact List.all_eq_true.mpr fun x hx => mem_takeWhile_pred (p := fun c => c != '#') hx
  case h_2 f heq =>
    rcases h' : t.takeWhile pathChar with _ | ⟨c, cs⟩
    · rw [h'] at h
      simp only [if_pos] at h
      cases h
      exact ⟨by simp, by simp, by simp [pathChar], by simp⟩
    · rw [h'] at h
      have hne : (c :: cs : Str) ≠ [] := by simp
      rw [if_neg hne] at h
      cases h
      exact ⟨hne, hpathRaw h' hne,
        List.all_eq_true.mpr fun x hx => mem_takeWhile_pred (h' ▸ hx), by simp⟩
  case h_3 hne1 hne2 =>
    rcases h' : t.takeWhile pathChar with _ | ⟨c, cs⟩
    · rw [h'] at h
      simp only [if_pos] at h
      cases h
      exact ⟨by simp, by simp, by simp [pathChar], by simp⟩
    · rw [h'] at h
      have hne : (c :: cs : Str) ≠ [] := by simp
      rw [if_neg hne] at h
      cases h
      exact ⟨hne, hpathRaw h' hne,
        List.all_eq_true.mpr fun x hx => mem_takeWhile_pred (h' ▸ hx), by simp⟩

theorem parseURL_wf {s : Str} {r : UrlParts} (h : parseURL s = some r) : UrlWF r := by
  unfold parseURL at h
  dsimp only at h
  split at h
  case h_1 rest2 heq =>
    split at h
    case isTrue => exact absurd h (by simp)
    case isFalse hcond =>
      push_neg at hcond
      obtain ⟨hs1, hs2⟩ := hcond
      have hTail : ∀ c, (rest2.dropWhile authChar).head? = some c → authChar c = false :=
        fun c hc => dropWhile_head_false rest2 c hc
      have hpt : parseTail (rest2.dropWhile authChar) =
          ((parseTail (rest2.dropWhile authChar)).1,
            (parseTail (rest2.dropWhile authChar)).2.1,
            (parseTail (rest2.dropWhile authChar)).2.2) := by
        simp
      obtain ⟨hp1, hp2, hp3, hp4⟩ := parseTail_wf hTail hpt
      have hhostAll : ∀ h0 : Str,
          h0 = (rest2.takeWhile authChar).takeWhile (fun c => c != ':') →
          h0.all hostChar = true := by
        intro h0 hh0
        refine List.all_eq_true.mpr fun x hx => ?_
        subst hh0
        have hx1 : (x != ':') = true := mem_takeWhile_pred (p := fun c => c != ':') hx
        have hx2 : authChar x = true := mem_takeWhile_pred (mem_takeWhile_mem hx)
        simp [hostChar, hx1, hx2]
      split at h
      case h_1 hds =>
        split at h
        case isTrue => exact absurd h (by simp)
        case isFalse hhost =>
          cases h
          refine ⟨hs1, hs2, hhost, hhostAll _ rfl, ?_, hp1, hp2, hp3, hp4⟩
          intro p hp
          cases hp
      case h_2 ds hds =>
        split at h
        case isTrue => exact absurd h (by simp)
        case isFalse hconds =>
          push_neg at hconds
          obtain ⟨hhost, hds1, hds2⟩ := hconds
          cases h
          refine ⟨hs1, hs2, hhost, hhostAll _ rfl, ?_, hp1, hp2, hp3, hp4⟩
          intro p hp
          cases hp
          exact ⟨hds1, hds2⟩
      case h_3 => exact absurd h (by simp)
  case h_2 => exact absurd h (by simp)

theorem head_dropLast {l : Str} (h : 2 ≤ l.length) : l.dropLast.head? = l.head? := by
  cases l with
  | nil => simp at h
  | cons a t =>
    cases t with
    | nil => simp at h
    | cons b u => simp [List.dropLast]

theorem stripTrailingSlash_wf {p : Str} (h1 : p ≠ []) (h2 : p.head? = some '/')
    (h3 : p.all pathChar) :
    stripTrailingSlash p ≠ [] ∧ (stripTrailingSlash p).head? = some '/' ∧
      (stripTrailingSlash p).all pathChar := by
  unfold stripTrailingSlash
  split
  case isTrue hc =>
    obtain ⟨hl, hlen⟩ := hc
    refine ⟨?_, ?_, ?_⟩
    · intro hx
      have := congrArg List.length hx
      simp [List.length_dropLast] at this
      omega
    · rw [head_dropLast (by omega)]
      exact h2
    · exact List.all_eq_true.mpr fun x hx =>
        List.all_eq_true.mp h3 x ((List.dropLast_sublist _).mem hx)
  case isFalse => exact ⟨h1, h2, h3⟩

theorem normParts_wf {r : UrlParts} (h : UrlWF r) : UrlWF (normParts r) := by
  obtain ⟨hs1, hs2, hh1, hh2, hp, hpa1, hpa2, hpa3, hq⟩ := h
  obtain ⟨hw1, hw2, hw3⟩ := stripTrailingSlash_wf hpa1 hpa2 hpa3
  unfold normParts UrlWF
  dsimp only
  split
  case isTrue hc =>
    dsimp only
    exact ⟨hs1, hs2, hh1, hh2, (by intro p hp'; cases hp'), hw1, hw2, hw3, hq⟩
  case isFalse hc =>
    dsimp only
    exact ⟨hs1, hs2, hh1, hh2, hp, hw1, hw2, hw3, hq⟩

theorem stripTrailingSlash_idem {p : Str} (h : ¬ ['/', '/'] <:+ p) :
    stripTrailingSlash (stripTrailingSlash p) = stripTrailingSlash p := by
  by_cases hc : p.getLast? = some '/' ∧ 1 < p.length
  · have h1 : stripTrailingSlash p = p.dropLast := by
      unfold stripTrailingSlash
      rw [if_pos hc]
    have h2 : ¬ (p.dropLast.getLast? = some '/' ∧ 1 < p.dropLast.length) := by
      rintro ⟨hl2, hlen2⟩
      apply h
      have hne : p ≠ [] := by rintro rfl; simp at hc
      have hne2 : p.dropLast ≠ [] := by
        intro hx
        rw [hx] at hlen2
        simp at hlen2
      have e1 : p.dropLast.dropLast ++ ['/'] = p.dropLast := by
        have := List.dropLast_append_getLast hne2
        rwa [List.getLast_eq_iff_getLast?_eq_some hne2 |>.mpr hl2] at this
      have e2 : p.dropLast ++ ['/'] = p := by
        have := List.dropLast_append_getLast hne
        rwa [List.getLast_eq_iff_getLast?_eq_some hne |>.mpr hc.1] at this
      refine ⟨p.dropLast.dropLast, ?_⟩
      rw [show (['/', '/'] : Str) = ['/'] ++ ['/'] by rfl, ← List.append_assoc, e1, e2]
    rw [h1]
    unfold stripTrailingSlash
    rw [if_neg h2]
  · have h1 : stripTrailingSlash p = p := by
      unfold stripTrailingSlash
      rw [if_neg hc]
    rw [h1, h1]

theorem UrlParts_ext {a b : UrlParts} (h1 : a.scheme = b.scheme) (h2 : a.host = b.host)
    (h3 : a.port = b.port) (h4 : a.path = b.path) (h5 : a.query = b.query)
    (h6 : a.fragment = b.fragment) : a = b := by
  cases a
  cases b
  simp_all

theorem normParts_scheme (r : UrlParts) : (normParts r).scheme = r.scheme := by
  unfold normParts
  dsimp only
  split <;> rfl

theorem normParts_host (r : UrlParts) : (normParts r).host = r.host := by
  unfold normParts
  dsimp only
  split <;> rfl

theorem normParts_query (r : UrlParts) : (normParts r).query = r.query := by
  unfold normParts
  dsimp only
  split <;> rfl

theorem normParts_fragment (r : UrlParts) : (normParts r).fragment = r.fragment := by
  unfold normParts
  dsimp only
  split <;> rfl

theorem normParts_path (r : UrlParts) : (normParts r).path = stripTrailingSlash r.path := by
  unfold normParts
  dsimp only
  split <;> rfl

theorem normParts_port (r : UrlParts) :
    (normParts r).port =
      if (r.scheme = ['h', 't', 't', 'p'] ∧ r.port = some ['8', '0']) ∨
          (r.scheme = ['h', 't', 't', 'p', 's'] ∧ r.port = some ['4', '4', '3']) then
        none
      else r.port := by
  unfold normParts
  dsimp only
  split
  case isTrue hc => rfl
  case isFalse hc => rfl


theorem normParts_idem {r : UrlParts} (h : ¬ ['/', '/'] <:+ r.path) :
    normParts (normParts r) = normParts r := by
  refine UrlParts_ext ?_ ?_ ?_ ?_ ?_ ?_
  · rw [normParts_scheme, normParts_scheme]
  · rw [normParts_host, normParts_host]
  · simp only [normParts_port, normParts_scheme]
    by_cases hc : (r.scheme = ['h', 't', 't', 'p'] ∧ r.port = some ['8', '0']) ∨
        (r.scheme = ['h', 't', 't', 'p', 's'] ∧ r.port = some ['4', '4', '3']) <;>
      simp [hc]
  · simp only [normParts_path]
    exact stripTrailingSlash_idem h
  · rw [normParts_query, normParts_query]
  · rw [normParts_fragment, normParts_fragment]

theorem toLower_idem (c : Char) : c.toLower.toLower = c.toLower := by
  unfold Char.toLower
  dsimp only
  by_cases h : c.toNat ≥ 65 ∧ c.toNat ≤ 90
  · rw [if_pos h]
    have hv : Nat.isValidChar (c.toNat + 32) := by
      constructor
      omega
    have ht : (Char.ofNat (c.toNat + 32)).toNat = c.toNat + 32 := by
      rw [Char.ofNat, dif_pos hv]
      simp [Char.toNat, Char.ofNatAux, UInt32.toNat, BitVec.toNat_ofNatLt]
    rw [ht]
    rw [if_neg (by omega)]
  · rw [if_neg h, if_neg h]

/-- Character lists all of whose characters are fixed by `toLower`. -/

theorem lowerFixed_lowerStr (u : Str) : LowerFixed (lowerStr u) := by
  intro c hc
  rw [lowerStr, List.mem_map] at hc
  obtain ⟨d, _, rfl⟩ := hc
  exact toLower_idem d

theorem lowerStr_eq_self {s : Str} (h : LowerFixed s) : lowerStr s = s := by
  rw [lowerStr]
  induction s with
  | nil => rfl
  | cons c t ih =>
    rw [List.map_cons, h c (List.mem_cons_self c t), ih]
    intro x hx
    exact h x (List.mem_cons_of_mem c hx)

theorem lowerFixed_append {a b : Str} (ha : LowerFixed a) (hb : LowerFixed b) :
    LowerFixed (a ++ b) := by
  intro c hc
  rcases List.mem_append.mp hc with hc | hc
  · exact ha c hc
  · exact hb c hc

theorem lowerFixed_cons {c : Char} {t : Str} (hc : c.toLower = c) (ht : LowerFixed t) :
    LowerFixed (c :: t) := by
  intro x hx
  rcases List.mem_cons.mp hx with rfl | hx
  · exact hc
  · exact ht x hx

theorem lowerFixed_nil : LowerFixed [] := by
  intro x hx
  simp at hx

theorem lowerFixed_sub {a b : Str} (hsub : ∀ c ∈ a, c ∈ b) (hb : LowerFixed b) :
    LowerFixed a := fun c hc => hb c (hsub c hc)


theorem mem_dropWhile_mem {p : Char → Bool} {l : Str} {x : Char}
    (h : x ∈ l.dropWhile p) : x ∈ l :=
  (List.dropWhile_sublist p).mem h

/-- Every character of a `parseTail` output component is a character of
the input or the default slash. -/
theorem parseTail_chars {t path : Str} {query fragment : Option Str}
    (h : parseTail t = (path, query, fragment)) :
    (∀ c ∈ path, c ∈ t ∨ c = '/') ∧
      (∀ q, query = some q → ∀ c ∈ q, c ∈ t) ∧
      (∀ f, fragment = some f → ∀ c ∈ f, c ∈ t) := by
  have hq' : ∀ {u : Str} {x : Char}, x ∈ u.takeWhile (fun c => c != '#') →
      ∀ {v : Str}, t.dropWhile pathChar = '?' :: u → x ∈ t := by
    intro u x hx v
    intro hdw
    have h1 : x ∈ ('?' :: u : Str) := List.mem_cons_of_mem _ (mem_takeWhile_mem hx)
    rw [← hdw] at h1
    exact mem_dropWhile_mem h1
  unfold parseTail at h
  dsimp only at h
  split at h
  case h_1 u heq =>
    split at h
    case h_1 f heq2 =>
      cases h
      refine ⟨?_, ?_, ?_⟩
      · split
        case isTrue => intro c hc; right; simpa using hc
        case isFalse =>
          intro c hc
          exact Or.inl (mem_takeWhile_mem hc)
      · intro q hqq c hc
        cases hqq
        exact hq' hc (v := []) heq
      · intro f' hf c hc
        cases hf
        have h1 : c ∈ ('#' :: f : Str) := List.mem_cons_of_mem _ hc
        rw [← heq2] at h1
        have h2 : c ∈ ('?' :: u : Str) :=
          List.mem_cons_of_mem _ (mem_dropWhile_mem h1)
        rw [← heq] at h2
        exact mem_dropWhile_mem h2
    case h_2 heq2 =>
      cases h
      refine ⟨?_, ?_, by simp⟩
      · split
        case isTrue => intro c hc; right; simpa using hc
        case isFalse =>
          intro c hc
          exact Or.inl (mem_takeWhile_mem hc)
      · intro q hqq c hc
        cases hqq
        exact hq' hc (v := []) heq
  case h_2 f heq =>
    cases h
    refine ⟨?_, by simp, ?_⟩
    · split
      case isTrue => intro c hc; right; simpa using hc
      case isFalse =>
        intro c hc
        exact Or.inl (mem_takeWhile_mem hc)
    · intro f' hf c hc
      cases hf
      have h1 : c ∈ ('#' :: f : Str) := List.mem_cons_of_mem _ hc
      rw [← heq] at h1
      exact mem_dropWhile_mem h1
  case h_3 h1 h2 =>
    cases h
    refine ⟨?_, by simp, by simp⟩
    split
    case isTrue => intro c hc; right; simpa using hc
    case isFalse =>
      intro c hc
      exact Or.inl (mem_takeWhile_mem hc)

/-- Every character of every component of a parsed URL is a character
of the input string or the default slash. -/
theorem parseURL_chars {s : Str} {r : UrlParts} (h : parseURL s = some r) :
    (∀ c ∈ r.scheme, c ∈ s) ∧ (∀ c ∈ r.host, c ∈ s) ∧
      (∀ p, r.port = some p → ∀ c ∈ p, c ∈ s) ∧
      (∀ c ∈ r.path, c ∈ s ∨ c = '/') ∧
      (∀ q, r.query = some q → ∀ c ∈ q, c ∈ s) ∧
      (∀ f, r.fragment = some f → ∀ c ∈ f, c ∈ s) := by
  unfold parseURL at h
  dsimp only at h
  split at h
  case h_1 rest2 heq =>
    have hrest2 : ∀ c ∈ rest2, c ∈ s := by
      intro c hc
      have h1 : c ∈ (':' :: '/' :: '/' :: rest2 : Str) := by
        simp [hc]
      rw [← heq] at h1
      exact mem_dropWhile_mem h1
    have hauth : ∀ c ∈ rest2.takeWhile authChar, c ∈ s :=
      fun c hc => hrest2 c (mem_takeWhile_mem hc)
    have hafter : ∀ c ∈ rest2.dropWhile authChar, c ∈ s :=
      fun c hc => hrest2 c (mem_dropWhile_mem hc)
    have hpt : parseTail (rest2.dropWhile authChar) =
        ((parseTail (rest2.dropWhile authChar)).1,
          (parseTail (rest2.dropWhile authChar)).2.1,
          (parseTail (rest2.dropWhile authChar)).2.2) := by
      simp
    obtain ⟨hc1, hc2, hc3⟩ := parseTail_chars hpt
    split at h
    case isTrue => exact absurd h (by simp)
    case isFalse hcond =>
      have hscheme : ∀ c ∈ s.takeWhile (fun c => c != ':'), c ∈ s :=
        fun c hc => mem_takeWhile_mem hc
      have hhost : ∀ c ∈ (rest2.takeWhile authChar).takeWhile (fun c => c != ':'), c ∈ s :=
        fun c hc => hauth c (mem_takeWhile_mem hc)
      split at h
      case h_1 hds =>
        split at h
        case isTrue => exact absurd h (by simp)
        case isFalse hhostne =>
          cases h
          refine ⟨hscheme, hhost, ?_, ?_, ?_, ?_⟩
          · intro p hp
            cases hp
          · intro c hc
            rcases hc1 c hc with hx | hx
            · exact Or.inl (hafter c hx)
            · exact Or.inr hx
          · intro q hqq c hc
            exact hafter c (hc2 q hqq c hc)
          · intro f hf c hc
            exact hafter c (hc3 f hf c hc)
      case h_2 ds hds =>
        split at h
        case isTrue => exact absurd h (by simp)
        case isFalse hconds =>
          cases h
          have hds' : ∀ c ∈ ds, c ∈ s := by
            intro c hc
            have h1 : c ∈ (':' :: ds : Str) := List.mem_cons_of_mem _ hc
            rw [← hds] at h1
            exact hauth c (mem_dropWhile_mem h1)
          refine ⟨hscheme, hhost, ?_, ?_, ?_, ?_⟩
          · intro p hp
            cases hp
            exact hds'
          · intro c hc
            rcases hc1 c hc with hx | hx
            · exact Or.inl (hafter c hx)
            · exact Or.inr hx
          · intro q hqq c hc
            exact hafter c (hc2 q hqq c hc)
          · intro f hf c hc
            exact hafter c (hc3 f hf c hc)
      case h_3 => exact absurd h (by simp)
  case h_2 => exact absurd h (by simp)

/-- A serialized URL all of whose components are lowercase-fixed is
itself lowercase-fixed. -/
theorem lowerStr_serializeURL {r : UrlParts}
    (h1 : LowerFixed r.scheme) (h2 : LowerFixed r.host)
    (h3 : ∀ p, r.port = some p → LowerFixed p) (h4 : LowerFixed r.path)
    (h5 : ∀ q, r.query = some q → LowerFixed q)
    (h6 : ∀ f, r.fragment = some f → LowerFixed f) :
    lowerStr (serializeURL r) = serializeURL r := by
  apply lowerStr_eq_self
  unfold serializeURL
  refine lowerFixed_append (lowerFixed_append (lowerFixed_append (lowerFixed_append
    (lowerFixed_append (lowerFixed_append h1 ?_) h2) ?_) h4) ?_) ?_
  · exact lowerFixed_cons rfl (lowerFixed_cons rfl (lowerFixed_cons rfl lowerFixed_nil))
  · cases hp : r.port with
    | none => exact lowerFixed_nil
    | some p => exact lowerFixed_cons rfl (h3 p hp)
  · cases hq : r.query with
    | none => exact lowerFixed_nil
    | some q => exact lowerFixed_cons rfl (h5 q hq)
  · cases hf : r.fragment with
    | none => exact lowerFixed_nil
    | some f => exact lowerFixed_cons rfl (h6 f hf)

theorem normalizeUrl_eq_serialize {u : Str} {r : UrlParts}
    (h : parseURL (lowerStr u) = some r) :
    normalizeUrl u = serializeURL (normParts r) := by
  unfold normalizeUrl
  rw [h]

theorem normalizeUrl_of_parse_fail {u : Str} (h : parseURL (lowerStr u) = none) :
    normalizeUrl u = u := by
  unfold normalizeUrl
  rw [h]

theorem normParts_lowerFixed {u : Str} {r : UrlParts}
    (h : parseURL (lowerStr u) = some r) :
    LowerFixed (normParts r).scheme ∧ LowerFixed (normParts r).host ∧
      (∀ p, (normParts r).port = some p → LowerFixed p) ∧
      LowerFixed (normParts r).path ∧
      (∀ q, (normParts r).query = some q → LowerFixed q) ∧
      (∀ f, (normParts r).fragment = some f → LowerFixed f) := by
  obtain ⟨hc1, hc2, hc3, hc4, hc5, hc6⟩ := parseURL_chars h
  have hlf : LowerFixed (lowerStr u) := lowerFixed_lowerStr u
  have hslash : ('/' : Char).toLower = '/' := rfl
  refine ⟨?_, ?_, ?_, ?_, ?_, ?_⟩
  · rw [normParts_scheme]
    exact fun c hc => hlf c (hc1 c hc)
  · rw [normParts_host]
    exact fun c hc => hlf c (hc2 c hc)
  · rw [normParts_port]
    split
    case isTrue => intro p hp; cases hp
    case isFalse =>
      intro p hp c hc
      exact hlf c (hc3 p hp c hc)
  · rw [normParts_path]
    intro c hc
    have hmem : c ∈ r.path := by
      unfold stripTrailingSlash at hc
      split at hc
      · exact (List.dropLast_sublist _).mem hc
      · exact hc
    rcases hc4 c hmem with hx | hx
    · exact hlf c hx
    · rw [hx]
      rfl
  · rw [normParts_query]
    intro q hq c hc
    exact hlf c (hc5 q hq c hc)
  · rw [normParts_fragment]
    intro f hf c hc
    exact hlf c (hc6 f hf c hc)

theorem normalizeUrl_lowerFixed {u : Str} {r : UrlParts}
    (h : parseURL (lowerStr u) = some r) :
    lowerStr (normalizeUrl u) = normalizeUrl u := by
  rw [normalizeUrl_eq_serialize h]
  obtain ⟨h1, h2, h3, h4, h5, h6⟩ := normParts_lowerFixed h
  exact lowerStr_serializeURL h1 h2 h3 h4 h5 h6

theorem normalizeUrl_parse {u : Str} {r : UrlParts}
    (h : parseURL (lowerStr u) = some r) :
    parseURL (normalizeUrl u) = some (normParts r) := by
  rw [normalizeUrl_eq_serialize h]
  exact parseURL_serializeURL (normParts_wf (parseURL_wf h))

theorem normalizeUrl_idem {u : Str}
    (h : parseURL (lowerStr u) = none ∨
      ∃ r, parseURL (lowerStr u) = some r ∧ ¬ ['/', '/'] <:+ r.path) :
    normalizeUrl (normalizeUrl u) = normalizeUrl u := by
  rcases h with h | ⟨r, h, hpath⟩
  · rw [normalizeUrl_of_parse_fail h, normalizeUrl_of_parse_fail h]
  · have h1 : parseURL (lowerStr (normalizeUrl u)) = some (normParts r) := by
      rw [normalizeUrl_lowerFixed h]
      exact normalizeUrl_parse h
    rw [normalizeUrl_eq_serialize h1, normParts_idem hpath, normalizeUrl_eq_serialize h]

/-- On nonempty paths, the source's `length > 1` guard is the spec's
"path is not exactly `/`" condition. -/
theorem stripTrailingSlash_spec {p : Str} (hne : p ≠ []) :
    stripTrailingSlash p =
      if p.getLast? = some '/' ∧ p ≠ ['/'] then p.dropLast else p := by
  unfold stripTrailingSlash
  by_cases hl : p.getLast? = some '/'
  · by_cases hone : p ≠ ['/']
    · have hlen : 1 < p.length := by
        cases p with
        | nil => exact absurd rfl hne
        | cons a t =>
          cases t with
          | nil =>
            exfalso
            apply hone
            have ha : a = '/' := by simpa using hl
            rw [ha]
          | cons b u => simp
      rw [if_pos ⟨hl, hlen⟩, if_pos ⟨hl, hone⟩]
    · rw [not_not] at hone
      subst hone
      rw [if_neg (by simp), if_neg (by simp)]
  · rw [if_neg (by tauto), if_neg (by tauto)]

/-! ### Ingestion lemmas -/

theorem ingestLoop_spec (env : IngestEnv) (existing : List Str) :
    ∀ (us : List Str) (acc : IngestAcc),
      (us.foldl (ingestStep env existing) acc).processedItems =
        acc.processedItems ++
          (us.filter (ingestOk env existing)).map (fun u => ⟨env.idGen u, u, u⟩) ∧
      (us.foldl (ingestStep env existing) acc).sentMessages =
        acc.sentMessages ++
          (us.filter (ingestOk env existing)).map (fun u => ⟨env.idGen u, u, u, env.now⟩) ∧
      (us.foldl (ingestStep env existing) acc).attempted =
        acc.attempted ++ us.filter (fun u => !(decide (u ∈ existing))) ∧
      (us.foldl (ingestStep env existing) acc).skippedUrls =
        acc.skippedUrls ++ us.filter (fun u => decide (u ∈ existing)) := by
  intro us
  induction us with
  | nil => intro acc; simp
  | cons u t ih =>
    intro acc
    rw [List.foldl_cons]
    obtain ⟨ih1, ih2, ih3, ih4⟩ := ih (ingestStep env existing acc u)
    by_cases hmem : u ∈ existing
    · have hstep : ingestStep env existing acc u =
          { acc with skippedUrls := acc.skippedUrls ++ [u] } := by
        unfold ingestStep
        rw [if_pos hmem]
      have hok : ingestOk env existing u = false := by
        simp [ingestOk, hmem]
      refine ⟨?_, ?_, ?_, ?_⟩
      · rw [ih1, hstep]
        simp [List.filter_cons, hok]
      · rw [ih2, hstep]
        simp [List.filter_cons, hok]
      · rw [ih3, hstep]
        simp [List.filter_cons, hmem]
      · rw [ih4, hstep]
        simp [List.filter_cons, hmem]
    · by_cases hins : env.insertThrows u
      · have hstep : ingestStep env existing acc u =
            { acc with attempted := acc.attempted ++ [u] } := by
          unfold ingestStep
          rw [if_neg hmem]
          simp [hins]
        have hok : ingestOk env existing u = false := by
          simp [ingestOk, hins]
        refine ⟨?_, ?_, ?_, ?_⟩
        · rw [ih1, hstep]
          simp [List.filter_cons, hok]
        · rw [ih2, hstep]
          simp [List.filter_cons, hok]
        · rw [ih3, hstep]
          simp [List.filter_cons, hmem]
        · rw [ih4, hstep]
          simp [List.filter_cons, hmem]
      · by_cases hsend : env.sendThrows u
        · have hstep : ingestStep env existing acc u =
              { acc with attempted := acc.attempted ++ [u] } := by
            unfold ingestStep
            rw [if_neg hmem]
            simp [hins, hsend]
          have hok : ingestOk env existing u = false := by
            simp [ingestOk, hsend]
          refine ⟨?_, ?_, ?_, ?_⟩
          · rw [ih1, hstep]
            simp [List.filter_cons, hok]
          · rw [ih2, hstep]
            simp [List.filter_cons, hok]
          · rw [ih3, hstep]
            simp [List.filter_cons, hmem]
          · rw [ih4, hstep]
            simp [List.filter_cons, hmem]
        · have hstep : ingestStep env existing acc u =
              { acc with
                attempted := acc.attempted ++ [u]
                processedItems := acc.processedItems ++ [⟨env.idGen u, u, u⟩]
                sentMessages := acc.sentMessages ++ [⟨env.idGen u, u, u, env.now⟩] } := by
            unfold ingestStep
            rw [if_neg hmem]
            simp [hins, hsend]
          have hok : ingestOk env existing u = true := by
            simp [ingestOk, hmem, hins, hsend]
          refine ⟨?_, ?_, ?_, ?_⟩
          · rw [ih1, hstep]
            simp [List.filter_cons, hok]
          · rw [ih2, hstep]
            simp [List.filter_cons, hok]
          · rw [ih3, hstep]
            simp [List.filter_cons, hmem]
          · rw [ih4, hstep]
            simp [List.filter_cons, hmem]

theorem normalizedMap_inv (urls : List Str) :
    ∀ (m : List (Str × Str)),
      (∀ pr ∈ m, pr.1 = normalizeUrl pr.2) → (m.map Prod.fst).Nodup →
      (∀ pr ∈ urls.foldl addIfAbsent m, pr.1 = normalizeUrl pr.2) ∧
        ((urls.foldl addIfAbsent m).map Prod.fst).Nodup := by
  induction urls with
  | nil => intro m h1 h2; exact ⟨h1, h2⟩
  | cons u t ih =>
    intro m h1 h2
    rw [List.foldl_cons]
    unfold addIfAbsent
    split
    case isTrue hmem => exact ih m h1 h2
    case isFalse hmem =>
      refine ih (m ++ [(normalizeUrl u, u)]) ?_ ?_
      · intro pr hpr
        rcases List.mem_append.mp hpr with hx | hx
        · exact h1 pr hx
        · simp at hx
          rw [hx]
      · rw [List.map_append]
        simp only [List.map_cons, List.map_nil]
        rw [List.nodup_append]
        refine ⟨h2, List.nodup_singleton _, ?_⟩
        intro a ha hb
        simp at hb
        subst hb
        exact hmem ha

theorem uniqueUrls_nodup (urls : List Str) : (uniqueUrls urls).Nodup := by
  obtain ⟨h1, h2⟩ := normalizedMap_inv urls [] (by simp) (by simp)
  have hmapeq : (List.foldl addIfAbsent [] urls).map Prod.fst =
      (uniqueUrls urls).map normalizeUrl := by
    unfold uniqueUrls normalizedMap
    rw [List.map_map]
    exact List.map_congr_left fun pr hpr => h1 pr hpr
  rw [hmapeq] at h2
  exact h2.of_map normalizeUrl

theorem uniqueUrls_key (urls : List Str) :
    ∀ pr ∈ normalizedMap urls, pr.1 = normalizeUrl pr.2 :=
  (normalizedMap_inv urls [] (by simp) (by simp)).1

theorem foldl_addIfAbsent_absorb :
    ∀ (us : List Str) (m : List (Str × Str)),
      (∀ u ∈ us, normalizeUrl u ∈ m.map Prod.fst) →
      us.foldl addIfAbsent m = m := by
  intro us
  induction us with
  | nil => intro m _; rfl
  | cons u t ih =>
    intro m h
    rw [List.foldl_cons]
    unfold addIfAbsent
    rw [if_pos (h u (List.mem_cons_self u t))]
    exact ih m fun v hv => h v (List.mem_cons_of_mem u hv)

/-- If every URL of the batch normalizes like the head, the dedup map
retains only the head (the first-seen original). -/
theorem uniqueUrls_all_same {u0 : Str} {rest : List Str}
    (h : ∀ u ∈ rest, normalizeUrl u = normalizeUrl u0) :
    uniqueUrls (u0 :: rest) = [u0] := by
  unfold uniqueUrls normalizedMap
  rw [List.foldl_cons]
  have h0 : addIfAbsent [] u0 = [(normalizeUrl u0, u0)] := by
    unfold addIfAbsent
    simp
  rw [h0, foldl_addIfAbsent_absorb rest _ ?_]
  · simp
  · intro u hu
    rw [h u hu]
    simp

/-- Full characterization of `addBookmarks` in terms of the dedup list
and the per-URL outcome oracle. -/
theorem addBookmarks_spec (env : IngestEnv) (urls : List Str) :
    (addBookmarks env urls).success = true ∧
    (addBookmarks env urls).items =
      ((uniqueUrls urls).filter
        (ingestOk env (existingUrls env (uniqueUrls urls)))).map
        (fun u => ⟨env.idGen u, u, u⟩) ∧
    (addBookmarks env urls).sentMessages =
      ((uniqueUrls urls).filter
        (ingestOk env (existingUrls env (uniqueUrls urls)))).map
        (fun u => ⟨env.idGen u, u, u, env.now⟩) ∧
    (addBookmarks env urls).attempted =
      (uniqueUrls urls).filter
        (fun u => !(decide (u ∈ existingUrls env (uniqueUrls urls)))) ∧
    (addBookmarks env urls).processed =
      ((uniqueUrls urls).filter
        (ingestOk env (existingUrls env (uniqueUrls urls)))).length ∧
    (addBookmarks env urls).skipped =
      ((uniqueUrls urls).filter
        (fun u => decide (u ∈ existingUrls env (uniqueUrls urls)))).length := by
  unfold addBookmarks
  dsimp only
  split
  case isTrue hempty =>
    rw [List.isEmpty_iff] at hempty
    rw [hempty]
    simp
  case isFalse hempty =>
    obtain ⟨h1, h2, h3, h4⟩ :=
      ingestLoop_spec env (existingUrls env (uniqueUrls urls)) (uniqueUrls urls)
        ⟨[], [], [], []⟩
    simp only at h1 h2 h3 h4
    rw [h1, h2, h3, h4]
    simp

/-- Claim C4 (confirmed): for a call whose input is one URL repeated
(up to normalization) N ≥ 1 times, with the store lacking it and its
insert and enqueue succeeding, `processed` counts the URL exactly
once, exactly one queue message is emitted for it, and the queued
message's `link` equals the first-seen original input string among the
duplicates. -/
theorem addBookmarks_dedup_claim (env : IngestEnv) (u0 : Str) (rest : List Str)
    (hsame : ∀ u ∈ rest, normalizeUrl u = normalizeUrl u0)
    (hcheck : env.checkThrows = false)
    (hnew : u0 ∉ env.store)
    (hins : env.insertThrows u0 = false)
    (hsend : env.sendThrows u0 = false) :
    (addBookmarks env (u0 :: rest)).processed = 1 ∧
    (addBookmarks env (u0 :: rest)).sentMessages =
      [⟨env.idGen u0, u0, u0, env.now⟩] ∧
    (addBookmarks env (u0 :: rest)).items = [⟨env.idGen u0, u0, u0⟩] := by
  obtain ⟨_, hitems, hsent, _, hproc, _⟩ := addBookmarks_spec env (u0 :: rest)
  have huniq := uniqueUrls_all_same hsame
  rw [huniq] at hitems hsent hproc
  have hex : existingUrls env [u0] = [] := by
    unfold existingUrls
    rw [hcheck]
    simp [hnew]
  rw [hex] at hitems hsent hproc
  have hok : ingestOk env [] u0 = true := by
    simp [ingestOk, hins, hsend]
  rw [show ([u0].filter (ingestOk env [])) = [u0] by simp [List.filter_cons, hok]]
    at hitems hsent hproc
  simp only [List.map_cons, List.map_nil, List.length_cons, List.length_nil] at *
  exact ⟨hproc, hsent, hitems⟩

/-- Claim C5 (confirmed): if the batched existence-check query inside
`addBookmarks` throws, the call does not fail: it still returns
`success = true`, still attempts to persist and enqueue every distinct
normalized input URL (all inputs treated as new, none skipped). -/
theorem addBookmarks_degraded_claim (env : IngestEnv) (urls : List Str)
    (hcheck : env.checkThrows = true) :
    (addBookmarks env urls).success = true ∧
    (addBookmarks env urls).attempted = uniqueUrls urls ∧
    (addBookmarks env urls).skipped = 0 := by
  obtain ⟨hsucc, _, _, hatt, _, hskip⟩ := addBookmarks_spec env urls
  have hex : existingUrls env (uniqueUrls urls) = [] := by
    unfold existingUrls
    rw [hcheck]
    simp
  rw [hex] at hatt hskip
  refine ⟨hsucc, ?_, ?_⟩
  · rw [hatt]
    simp
  · rw [hskip]
    simp

/-- Claim C8 (confirmed): within one `addBookmarks` call, a thrown
error while persisting or enqueuing one URL does not abort the batch:
the call still returns `success = true`, the failed URL is absent from
`items` and therefore not counted in `processed` (which equals
`items.length`), and every other distinct URL that is new and whose
insert and send succeed is still present in `items` and counted. -/
theorem addBookmarks_isolation_claim (env : IngestEnv) (urls : List Str) (ubad : Str)
    (hbad : ubad ∈ uniqueUrls urls)
    (hfail : env.insertThrows ubad = true ∨ env.sendThrows ubad = true) :
    (addBookmarks env urls).success = true ∧
    (addBookmarks env urls).items.map (·.link) =
      (uniqueUrls urls).filter (ingestOk env (existingUrls env (uniqueUrls urls))) ∧
    ubad ∉ (addBookmarks env urls).items.map (·.link) ∧
    (addBookmarks env urls).processed = (addBookmarks env urls).items.length ∧
    (∀ v ∈ uniqueUrls urls,
      ingestOk env (existingUrls env (uniqueUrls urls)) v = true →
      v ∈ (addBookmarks env urls).items.map (·.link)) := by
  obtain ⟨hsucc, hitems, _, _, hproc, _⟩ := addBookmarks_spec env urls
  have hmap : (addBookmarks env urls).items.map (·.link) =
      (uniqueUrls urls).filter (ingestOk env (existingUrls env (uniqueUrls urls))) := by
    rw [hitems, List.map_map]
    have : ((fun x : IngestItem => x.link) ∘ fun u : Str =>
        ({ id := env.idGen u, link := u, title := u } : IngestItem)) = fun u : Str => u := by
      funext u
      rfl
    rw [this, List.map_id']
  refine ⟨hsucc, hmap, ?_, ?_, ?_⟩
  · rw [hmap]
    intro hmem
    have := List.of_mem_filter hmem
    rcases hfail with hf | hf <;> simp [ingestOk, hf] at this
  · rw [hproc, hitems, List.length_map]
  · intro v hv hok
    rw [hmap]
    exact List.mem_filter.mpr ⟨hv, hok⟩

theorem handleMsg_ok (env : QueueEnv) (existing : List Str) (m : Msg)
    (hc : ∀ rid e, env.fail (.cacheError rid e) = none) :
    handleMsg env existing m = .ok (handleMsgOk env existing m) := by
  unfold handleMsg handleMsgOk
  split
  · rfl
  · split
    · rfl
    · case _ tr e =>
      rw [hc]
      dsimp only
      split <;> rfl

theorem handleQueueGo_ok (env : QueueEnv) (existing : List Str)
    (hc : ∀ rid e, env.fail (.cacheError rid e) = none) :
    ∀ ms : List Msg,
      handleQueueGo env existing ms = .ok (ms.map (handleMsgOk env existing)) := by
  intro ms
  induction ms with
  | nil => rfl
  | cons m t ih =>
    unfold handleQueueGo
    rw [handleMsg_ok env existing m hc, ih]
    rfl

theorem handleQueue_ok (env : QueueEnv) (batch : List Msg)
    (hc : ∀ rid e, env.fail (.cacheError rid e) = none) :
    handleQueue env batch = .ok (batch.map (handleMsgOk env (existingOf env batch))) :=
  handleQueueGo_ok env (existingOf env batch) hc batch

theorem handleMsgOk_skip (env : QueueEnv) (existing : List Str) (m : Msg)
    (h : m.link ∈ existing) :
    handleMsgOk env existing m = ⟨m.raindropId, m.link, true, true, false, []⟩ := by
  unfold handleMsgOk
  rw [if_pos h]

theorem handleMsgOk_outcome (env : QueueEnv) (existing : List Str) (m : Msg) :
    ((handleMsgOk env existing m).acked = true ∧
        (handleMsgOk env existing m).retried = false) ∨
      ((handleMsgOk env existing m).retried = true ∧
        (handleMsgOk env existing m).acked = false) := by
  unfold handleMsgOk
  split
  · left; exact ⟨rfl, rfl⟩
  · split
    · left; exact ⟨rfl, rfl⟩
    · split
      · right; exact ⟨rfl, rfl⟩
      · left; exact ⟨rfl, rfl⟩

theorem pipelineE_attempts (env : QueueEnv) (m : Msg) (a : Nat) :
    pipelineE env { m with attempts := a } = pipelineE env m := rfl

/-- Claim C1 (confirmed): when the batch existence query succeeds
(and the error-ledger write cannot throw, so the handler runs the
whole batch), `handleQueue` acknowledges and silently skips every
message whose `link` already exists as a BookmarkRecord: the
message's record is marked skipped and acked, not retried, with an
empty trace — no extraction, no AI call, and no writes happen for that
message.  The existence check is the single batch-level query
`existingOf`, computed once before the message loop. -/
theorem handleQueue_skip_claim (env : QueueEnv) (batch : List Msg)
    (hcheck : env.batchCheckThrows = false)
    (hc : ∀ rid e, env.fail (.cacheError rid e) = none) :
    handleQueue env batch = .ok (batch.map (handleMsgOk env (existingOf env batch))) ∧
    ∀ m ∈ batch, m.link ∈ env.store →
      handleMsgOk env (existingOf env batch) m =
        ⟨m.raindropId, m.link, true, true, false, []⟩ := by
  refine ⟨handleQueue_ok env batch hc, ?_⟩
  intro m hm hstore
  apply handleMsgOk_skip
  unfold existingOf
  rw [hcheck]
  simp only [Bool.false_eq_true, if_false]
  exact List.mem_filter.mpr ⟨List.mem_map_of_mem _ hm, by simpa using hstore⟩

theorem handleMsg_attempt_retry (env : QueueEnv) (existing : List Str) (m : Msg)
    (tr : List PipeAction) (err : Str)
    (hpipe : pipelineE env m = .error (tr, err))
    (hc : ∀ rid e, env.fail (.cacheError rid e) = none)
    (hskip : m.link ∉ existing) (a : Nat) (ha : a < MAX_QUEUE_ATTEMPTS) :
    handleMsg env existing { m with attempts := a } =
      .ok ⟨m.raindropId, m.link, false, false, true,
        tr ++ [.cacheError m.raindropId err]⟩ := by
  unfold handleMsg
  rw [if_neg hskip]
  rw [pipelineE_attempts, hpipe]
  dsimp only
  rw [hc]
  dsimp only
  rw [if_pos ha]

theorem handleMsg_attempt_drop (env : QueueEnv) (existing : List Str) (m : Msg)
    (tr : List PipeAction) (err : Str)
    (hpipe : pipelineE env m = .error (tr, err))
    (hc : ∀ rid e, env.fail (.cacheError rid e) = none)
    (hskip : m.link ∉ existing) (a : Nat) (ha : MAX_QUEUE_ATTEMPTS ≤ a) :
    handleMsg env existing { m with attempts := a } =
      .ok ⟨m.raindropId, m.link, false, true, false,
        tr ++ [.cacheError m.raindropId err]⟩ := by
  unfold handleMsg
  rw [if_neg hskip]
  rw [pipelineE_attempts, hpipe]
  dsimp only
  rw [hc]
  dsimp only
  rw [if_neg (by omega)]

/-- Claim C3 (confirmed): for a queue message whose stage 2-5
processing always throws, the consumer retries exactly while the
delivery attempt count is below `MAX_QUEUE_ATTEMPTS = 3` and
acknowledges (drops) the message at or above 3; simulated redelivery
starting at attempt 1 therefore gives exactly 3 total attempts (2
retries followed by a drop), and after every failed attempt the
ContentCacheRecord for that raindropId has its error field written
with the failure message. -/
theorem handleQueue_retry_claim (env : QueueEnv) (existing : List Str) (m : Msg)
    (tr : List PipeAction) (err : Str)
    (hpipe : pipelineE env m = .error (tr, err))
    (hc : ∀ rid e, env.fail (.cacheError rid e) = none)
    (hskip : m.link ∉ existing) :
    (∀ a, a < MAX_QUEUE_ATTEMPTS →
      handleMsg env existing { m with attempts := a } =
        .ok ⟨m.raindropId, m.link, false, false, true,
          tr ++ [.cacheError m.raindropId err]⟩) ∧
    (∀ a, MAX_QUEUE_ATTEMPTS ≤ a →
      handleMsg env existing { m with attempts := a } =
        .ok ⟨m.raindropId, m.link, false, true, false,
          tr ++ [.cacheError m.raindropId err]⟩) ∧
    (redeliver env existing m 10 1).length = 3 ∧
    (redeliver env existing m 10 1).map (fun r => r.retried) = [true, true, false] ∧
    (redeliver env existing m 10 1).map (fun r => r.acked) = [false, false, true] ∧
    (∀ r ∈ redeliver env existing m 10 1,
      PipeAction.cacheError m.raindropId err ∈ r.trace) := by
  have h1 := handleMsg_attempt_retry env existing m tr err hpipe hc hskip 1 (by decide)
  have h2 := handleMsg_attempt_retry env existing m tr err hpipe hc hskip 2 (by decide)
  have h3 := handleMsg_attempt_drop env existing m tr err hpipe hc hskip 3 (by decide)
  have hred : redeliver env existing m 10 1 =
      [⟨m.raindropId, m.link, false, false, true,
          tr ++ [.cacheError m.raindropId err]⟩,
        ⟨m.raindropId, m.link, false, false, true,
          tr ++ [.cacheError m.raindropId err]⟩,
        ⟨m.raindropId, m.link, false, true, false,
          tr ++ [.cacheError m.raindropId err]⟩] := by
    unfold redeliver
    rw [h1]
    dsimp only
    unfold redeliver
    rw [h2]
    dsimp only
    unfold redeliver
    rw [h3]
    dsimp only
    rfl
  refine ⟨fun a ha => handleMsg_attempt_retry env existing m tr err hpipe hc hskip a ha,
    fun a ha => handleMsg_attempt_drop env existing m tr err hpipe hc hskip a ha,
    ?_, ?_, ?_, ?_⟩
  · rw [hred]
    rfl
  · rw [hred]
    rfl
  · rw [hred]
    rfl
  · rw [hred]
    intro r hr
    simp only [List.mem_cons, List.not_mem_nil, or_false] at hr
    rcases hr with rfl | rfl | rfl <;> simp

/-- Claim C6 (amended): provided the catch-block ContentCacheRecord
error write never throws, the top-level batch handler `handleQueue`
always returns normally with exactly one record per message of the
batch, and every message is either acknowledged or retried (never
both, never neither) — in particular one item's failure never prevents
later items in the same batch from being processed. -/
theorem handleQueue_total_claim (env : QueueEnv) (batch : List Msg)
    (hc : ∀ rid e, env.fail (.cacheError rid e) = none) :
    handleQueue env batch = .ok (batch.map (handleMsgOk env (existingOf env batch))) ∧
    (batch.map (handleMsgOk env (existingOf env batch))).length = batch.length ∧
    ∀ r ∈ batch.map (handleMsgOk env (existingOf env batch)),
      (r.acked = true ∧ r.retried = false) ∨ (r.retried = true ∧ r.acked = false) := by
  refine ⟨handleQueue_ok env batch hc, List.length_map _ _, ?_⟩
  intro r hr
  rw [List.mem_map] at hr
  obtain ⟨m, _, rfl⟩ := hr
  exact handleMsgOk_outcome env (existingOf env batch) m

/-- Claim C9 (confirmed): a successful poll cycle that fetched at
least one item appends exactly one new `sync_log` row, leaving all
existing rows untouched (`syncLog' = syncLog ++ [row]`); reading the
checkpoint afterwards returns the newly appended row's
`lastSyncedAt`; and, when the fetched items are sorted most recent
first (as requested from the client), the appended `lastSyncedAt`
equals the creation timestamp of the most recent item successfully
queued in that cycle: `items[0]` is the head of the queued messages
and every queued message's `created` is at most `items[0].created`. -/
theorem scheduled_checkpoint_claim (env : SchedEnv) (s : SyncState)
    (it0 : RaindropItem) (rest : List RaindropItem)
    (hfetch : env.fetchItems (getLastSync s) = it0 :: rest)
    (hsend : ∀ i, env.sendThrows i = false)
    (hsorted : ∀ it ∈ env.fetchItems (getLastSync s), it.created ≤ it0.created) :
    scheduled env s =
      .ok (⟨s.syncLog ++ [⟨it0.created⟩]⟩,
        ((it0 :: rest).take MAX_QUEUE_ITEMS).map fun it =>
          ({ raindropId := it.rid, link := it.link, title := it.title,
             created := it.created } : QueueMsg)) ∧
    getLastSync ⟨s.syncLog ++ [⟨it0.created⟩]⟩ = some it0.created ∧
    (((it0 :: rest).take MAX_QUEUE_ITEMS).map fun it =>
        ({ raindropId := it.rid, link := it.link, title := it.title,
           created := it.created } : QueueMsg)).head? =
      some ⟨it0.rid, it0.link, it0.title, it0.created⟩ ∧
    ∀ q ∈ ((it0 :: rest).take MAX_QUEUE_ITEMS).map fun it =>
        ({ raindropId := it.rid, link := it.link, title := it.title,
           created := it.created } : QueueMsg),
      q.created ≤ it0.created := by
  refine ⟨?_, ?_, ?_, ?_⟩
  · unfold scheduled
    rw [hfetch]
    dsimp only
    rw [if_neg (by simp [hsend])]
    rfl
  · unfold getLastSync
    rw [List.getLast?_concat]
    rfl
  · rw [show MAX_QUEUE_ITEMS = 9 + 1 from rfl, List.take_succ_cons, List.map_cons]
    rfl
  · intro q hq
    rw [List.mem_map] at hq
    obtain ⟨it, hit, rfl⟩ := hq
    have : it ∈ it0 :: rest := (List.take_sublist _ _).mem hit
    rw [← hfetch] at this
    exact hsorted it this

theorem chunkLoop_succ (text : Str) (size overlap fuel start : Nat) :
    chunkLoop text size overlap (fuel + 1) start =
      if start < text.length then
        if min text.length (start + size) - overlap ≤ start ∨
            text.length ≤ min text.length (start + size) - overlap then
          some [(text.drop start).take (min text.length (start + size) - start)]
        else
          match chunkLoop text size overlap fuel
              (min text.length (start + size) - overlap) with
          | none => none
          | some rest =>
            some ((text.drop start).take (min text.length (start + size) - start) :: rest)
      else
        some [] := rfl

theorem chunkText_replicate_3000 :
    chunkText (List.replicate 3000 'a') =
      [List.replicate 1200 'a', List.replicate 1200 'a',
        List.replicate 1000 'a', List.replicate 200 'a'] := by
  have h1 : chunkLoop (List.replicate 3000 'a') 1200 200 2998 2800 =
      some [List.replicate 200 'a'] := by
    rw [show (2998 : Nat) = 2997 + 1 by norm_num, chunkLoop_succ]
    norm_num [List.drop_replicate, List.take_replicate]
  have h2 : chunkLoop (List.replicate 3000 'a') 1200 200 2999 2000 =
      some [List.replicate 1000 'a', List.replicate 200 'a'] := by
    rw [show (2999 : Nat) = 2998 + 1 by norm_num, chunkLoop_succ]
    norm_num [List.drop_replicate, List.take_replicate, h1]
  have h3 : chunkLoop (List.replicate 3000 'a') 1200 200 3000 1000 =
      some [List.replicate 1200 'a', List.replicate 1000 'a', List.replicate 200 'a'] := by
    rw [show (3000 : Nat) = 2999 + 1 by norm_num, chunkLoop_succ]
    norm_num [List.drop_replicate, List.take_replicate, h2]
  have h4 : chunkLoop (List.replicate 3000 'a') 1200 200 3001 0 =
      some [List.replicate 1200 'a', List.replicate 1200 'a',
        List.replicate 1000 'a', List.replicate 200 'a'] := by
    rw [show (3001 : Nat) = 3000 + 1 by norm_num, chunkLoop_succ]
    norm_num [List.drop_replicate, List.take_replicate, h3]
  simp only [chunkText, List.length_replicate]
  norm_num [h4]

/-- Claim C2 counterexample: `chunkText` on a 3000-character string
with size 1200 and overlap 200 does NOT return three chunks — it
returns four, of lengths 1200, 1200, 1000 and 200: after the chunk
covering positions 2000-2999 the window still advances to 2800 < 3000,
so a trailing 200-character chunk is emitted before the loop's
no-advance guard fires. -/
theorem chunkText_three_chunks_cex :
    (chunkText (List.replicate 3000 'a')).map List.length = [1200, 1200, 1000, 200] ∧
    (chunkText (List.replicate 3000 'a')).length ≠ 3 := by
  rw [chunkText_replicate_3000]
  constructor
  · simp only [List.map_cons, List.map_nil, List.length_replicate]
  · simp only [List.length_cons, List.length_nil]
    omega

/-- Claim C2 (amended): `chunkText` on a 3000-character string with
size 1200 and overlap 200 returns four chunks of lengths 1200, 1200,
1000 and 200 (the first three starting 1000 = size − overlap apart,
plus a trailing overlap-sized tail), and for every input — in
particular any input shorter than `size` — the loop terminates within
`length + 1` iterations. -/
theorem chunkText_chunks_amended :
    (chunkText (List.replicate 3000 'a')).map List.length = [1200, 1200, 1000, 200] ∧
    ∀ (text : Str) (size overlap : Nat),
      (chunkLoop text size overlap (text.length + 1) 0).isSome := by
  constructor
  · rw [chunkText_replicate_3000]
    simp only [List.map_cons, List.map_nil, List.length_replicate]
  · intro text size overlap
    exact chunkLoop_isSome text size overlap (text.length + 1) 0 (by omega)

/-- Claim C7 counterexample: query strings are not preserved verbatim
— `normalizeUrl` lowercases the whole URL before parsing, so the two
distinct URLs `https://example.com/page?X=1` and
`https://example.com/page?x=1`, which differ only in their query,
normalize to the same string. -/
theorem normalizeUrl_query_case_cex :
    ("https://example.com/page?X=1").toList ≠ ("https://example.com/page?x=1").toList ∧
    (∃ r1 r2 : UrlParts,
      parseURL ("https://example.com/page?X=1").toList = some r1 ∧
      parseURL ("https://example.com/page?x=1").toList = some r2 ∧
      r1.scheme = r2.scheme ∧ r1.host = r2.host ∧ r1.port = r2.port ∧
      r1.path = r2.path ∧ r1.fragment = r2.fragment ∧ r1.query ≠ r2.query) ∧
    normalizeUrl ("https://example.com/page?X=1").toList =
      normalizeUrl ("https://example.com/page?x=1").toList := by
  refine ⟨by decide, ⟨⟨("https").toList, ("example.com").toList, none,
    ("/page").toList, some ("X=1").toList, none⟩,
    ⟨("https").toList, ("example.com").toList, none,
      ("/page").toList, some ("x=1").toList, none⟩,
    by decide, by decide, by decide, by decide, by decide, by decide, by decide, by decide⟩,
    by decide⟩

/-- Claim C7 (amended): `normalizeUrl` satisfies, for every input
string: (1) unparseable input is returned unchanged; (2) for parseable
input the result re-parses with the same scheme and host, the query
and fragment of the lowercased input preserved, a single trailing
slash stripped from the path unless the path is exactly `/`, and an
explicit default port (`:80` for http, `:443` for https) removed;
(3) the result is entirely lowercase; and (4) two URLs whose
lowercased forms differ in query or fragment never normalize to the
same string (preservation is verbatim only up to lowercasing, not
verbatim as claimed). -/
theorem normalizeUrl_contract_amended :
    (∀ u : Str, parseURL (lowerStr u) = none → normalizeUrl u = u) ∧
    (∀ (u : Str) (r : UrlParts), parseURL (lowerStr u) = some r →
      ∃ r', parseURL (normalizeUrl u) = some r' ∧
        r'.scheme = r.scheme ∧ r'.host = r.host ∧
        r'.query = r.query ∧ r'.fragment = r.fragment ∧
        r'.path = (if r.path.getLast? = some '/' ∧ r.path ≠ ['/']
          then r.path.dropLast else r.path) ∧
        r'.port = (if (r.scheme = ['h', 't', 't', 'p'] ∧ r.port = some ['8', '0']) ∨
            (r.scheme = ['h', 't', 't', 'p', 's'] ∧ r.port = some ['4', '4', '3'])
          then none else r.port)) ∧
    (∀ (u : Str) (r : UrlParts), parseURL (lowerStr u) = some r →
      lowerStr (normalizeUrl u) = normalizeUrl u) ∧
    (∀ (u₁ u₂ : Str) (r₁ r₂ : UrlParts),
      parseURL (lowerStr u₁) = some r₁ → parseURL (lowerStr u₂) = some r₂ →
      (r₁.query ≠ r₂.query ∨ r₁.fragment ≠ r₂.fragment) →
      normalizeUrl u₁ ≠ normalizeUrl u₂) := by
  refine ⟨fun u h => normalizeUrl_of_parse_fail h, ?_, ?_, ?_⟩
  · intro u r h
    refine ⟨normParts r, normalizeUrl_parse h, normParts_scheme r, normParts_host r,
      normParts_query r, normParts_fragment r, ?_, normParts_port r⟩
    rw [normParts_path]
    exact stripTrailingSlash_spec (parseURL_wf h).2.2.2.2.2.1
  · intro u r h
    exact normalizeUrl_lowerFixed h
  · intro u₁ u₂ r₁ r₂ h₁ h₂ hdiff heq
    have e1 := normalizeUrl_parse h₁
    have e2 := normalizeUrl_parse h₂
    rw [heq, e2] at e1
    have : normParts r₂ = normParts r₁ := Option.some.inj e1
    rcases hdiff with hd | hd
    · apply hd
      rw [← normParts_query r₁, ← normParts_query r₂, this]
    · apply hd
      rw [← normParts_fragment r₁, ← normParts_fragment r₂, this]

/-- Claim C10 counterexample: `normalizeUrl` is not idempotent.  For
`http://example.com/a//` one application strips a single trailing
slash giving path `/a/`, and a second application strips again giving
`/a`, so normalizing twice differs from normalizing once. -/
theorem normalizeUrl_idem_cex :
    normalizeUrl (normalizeUrl ("http://example.com/a//").toList) ≠
      normalizeUrl ("http://example.com/a//").toList := by
  decide

/-- Claim C10 (amended): `normalizeUrl` is idempotent on every input
except those whose parsed path ends in a double slash: if the
lowercased input fails to parse, or parses with a path not ending in
`//`, then `normalizeUrl (normalizeUrl u) = normalizeUrl u`. -/
theorem normalizeUrl_idem_claim (u : Str)
    (h : parseURL (lowerStr u) = none ∨
      ∃ r, parseURL (lowerStr u) = some r ∧ ¬ ['/', '/'] <:+ r.path) :
    normalizeUrl (normalizeUrl u) = normalizeUrl u :=
  normalizeUrl_idem h

/-- Concrete witness for the C1 theorem: a one-message batch whose
link is already stored is acked and skipped with an empty trace. -/
theorem handleQueue_skip_claim_witness :
    handleQueue wEnvSkip [wMsgSkip] =
      .ok [⟨7, ("https://a.example/p").toList, true, true, false, []⟩] := by
  have h := handleQueue_skip_claim wEnvSkip [wMsgSkip] rfl (fun _ _ => rfl)
  have h2 := h.2 wMsgSkip (List.mem_singleton.mpr rfl) (by decide)
  rw [h.1, List.map_cons, List.map_nil, h2]
  rfl

/-- Concrete witness for the C3 theorem: with extraction always
failing, redelivery gives exactly 3 attempts, the first two
retried. -/
theorem handleQueue_retry_claim_witness :
    (redeliver wEnvFail [] wMsgFail 10 1).length = 3 ∧
    (redeliver wEnvFail [] wMsgFail 10 1).map (fun r => r.retried) =
      [true, true, false] := by
  have h := handleQueue_retry_claim wEnvFail [] wMsgFail
    [.extract (("https://b.example/q").toList)] (("boom").toList)
    rfl (fun _ _ => rfl) (by simp)
  exact ⟨h.2.2.1, h.2.2.2.1⟩

/-- Claim C6 counterexample: `handleQueue` is not total for every
behavior of the external collaborators.  With an environment in which
extraction throws and the catch-block ContentCacheRecord error write
also throws, the handler raises (the cache write's exception escapes)
and the batch's message is neither acknowledged nor retried. -/
theorem handleQueue_raises_cex :
    handleQueue wEnvCrash [wMsgFail] = .error (("kaboom").toList) := by
  rfl

/-- Concrete witness for the C6 amended theorem: a failing message is
retried, not dropped, and the handler returns normally. -/
theorem handleQueue_total_claim_witness :
    handleQueue wEnvFail [wMsgFail] =
      .ok [⟨9, ("https://b.example/q").toList, false, false, true,
        [.extract (("https://b.example/q").toList),
          .cacheError 9 (("boom").toList)]⟩] := by
  have h := handleQueue_total_claim wEnvFail [wMsgFail] (fun _ _ => rfl)
  rw [h.1]
  rfl

/-- Concrete witness for the C4 theorem: two spellings of one URL
produce one processed item and one queue message carrying the
first-seen original. -/
theorem addBookmarks_dedup_claim_witness :
    (addBookmarks wEnvIngest
      [("https://A.com/p").toList, ("https://a.com/p/").toList]).processed = 1 ∧
    (addBookmarks wEnvIngest
      [("https://A.com/p").toList, ("https://a.com/p/").toList]).sentMessages =
      [⟨42, ("https://A.com/p").toList, ("https://A.com/p").toList,
        ("2024-01-01T00:00:00Z").toList⟩] := by
  have h := addBookmarks_dedup_claim wEnvIngest (("https://A.com/p").toList)
    [("https://a.com/p/").toList] (by decide) rfl (by decide) rfl rfl
  exact ⟨h.1, h.2.1⟩

/-- Concrete witness for the C5 theorem: with the existence check
throwing, a stored URL is still attempted and nothing is skipped. -/
theorem addBookmarks_degraded_claim_witness :
    (addBookmarks wEnvIngestDeg [("https://a.com/x").toList]).success = true ∧
    (addBookmarks wEnvIngestDeg [("https://a.com/x").toList]).attempted =
      uniqueUrls [("https://a.com/x").toList] ∧
    (addBookmarks wEnvIngestDeg [("https://a.com/x").toList]).skipped = 0 :=
  addBookmarks_degraded_claim wEnvIngestDeg [("https://a.com/x").toList] rfl

/-- Concrete witness for the C8 theorem: a failing URL is absent from
`items` while the call still succeeds. -/
theorem addBookmarks_isolation_claim_witness :
    (addBookmarks wEnvIngestBad
      [("https://good.com/a").toList, ("https://bad.com/x").toList]).success = true ∧
    ("https://bad.com/x").toList ∉
      (addBookmarks wEnvIngestBad
        [("https://good.com/a").toList, ("https://bad.com/x").toList]).items.map
        (fun it => it.link) := by
  have h := addBookmarks_isolation_claim wEnvIngestBad
    [("https://good.com/a").toList, ("https://bad.com/x").toList]
    (("https://bad.com/x").toList) (by decide) (Or.inl (by decide))
  exact ⟨h.1, h.2.2.1⟩

/-- Concrete witness for the C9 theorem: one fetched item appends one
checkpoint row carrying its creation timestamp. -/
theorem scheduled_checkpoint_claim_witness :
    scheduled wEnvSched ⟨[]⟩ =
      .ok (⟨[⟨("2024-05-01").toList⟩]⟩,
        [⟨1, ("https://s.example/1").toList, ("t1").toList,
          ("2024-05-01").toList⟩]) := by
  have h := scheduled_checkpoint_claim wEnvSched ⟨[]⟩
    ⟨1, ("https://s.example/1").toList, ("t1").toList, ("2024-05-01").toList⟩ []
    rfl (fun _ => rfl) (by decide)
  rw [h.1]
  rfl

/-- Concrete witness for the C7 amended theorem: an unparseable input
is returned unchanged, and a parseable input's normalization is
lowercase-fixed. -/
theorem normalizeUrl_contract_amended_witness :
    normalizeUrl (("NOT A URL").toList) = ("NOT A URL").toList ∧
    lowerStr (normalizeUrl (("https://EXAMPLE.com/Page").toList)) =
      normalizeUrl (("https://EXAMPLE.com/Page").toList) := by
  constructor
  · exact normalizeUrl_contract_amended.1 (("NOT A URL").toList) (by decide)
  · exact normalizeUrl_contract_amended.2.2.1 (("https://EXAMPLE.com/Page").toList)
      ⟨("https").toList, ("example.com").toList, none, ("/page").toList, none, none⟩
      (by decide)

/-- Concrete witness for the C10 amended theorem: a URL with a single
trailing slash normalizes idempotently. -/
theorem normalizeUrl_idem_claim_witness :
    normalizeUrl (normalizeUrl (("https://Example.com/Page/").toList)) =
      normalizeUrl (("https://Example.com/Page/").toList) := by
  apply normalizeUrl_idem_claim
  right
  exact ⟨⟨("https").toList, ("example.com").toList, none, ("/page/").toList,
    none, none⟩, by decide, by decide⟩
